import Mathlib

/-!
Verification model of the log-structured key-value store in
src/src/kv_store.rs (the shared engine) and of the request handler in
src/src/server.rs.

Paths: every segment file of an engine lives in one data directory and is
named with a numeric prefix, as in 3.log; a path is therefore modelled by
its numeric prefix (a Nat).  Byte strings are modelled by String (keys and
values) and file contents by lists of records; offsets and sizes are Nat.
-/

deriving instance DecidableEq for Except

namespace KvsModel

/-- Record enum of kv_store.rs: Set(key, value) and Delete(key). -/
inductive Record where
  | Set : String → String → Record
  | Delete : String → Record
deriving DecidableEq

/-- The key carried by a record. -/
def Record.key : Record → String
  | .Set k _ => k
  | .Delete k => k

/-- Modelled from the spec: the external BSON codec produces, for each
record, one length-prefixed self-terminating frame whose byte length is
returned to the caller ("The encoder yields a byte sequence whose length
equals the value returned to the caller and used to size the Location").
The exact length function of the bson crate is outside the repository; the
model only relies on the frame size being positive and a function of the
record, and fixes a concrete positive size so the model stays executable. -/
def encSize : Record → Nat
  | .Set k v => k.utf8ByteSize + v.utf8ByteSize + 26
  | .Delete k => k.utf8ByteSize + 22

/-- A record location: (segment path, byte offset, byte length), the
RecordLocation tuple of kv_store.rs. -/
abbrev Loc := Nat × Nat × Nat

/-- Error enum of errors.rs, restricted to the variants the modelled code
can produce. -/
inductive KvStoreError where
  | Io : KvStoreError
  | EncoderError : KvStoreError
  | DecoderError : KvStoreError
  | NonExistentKeyError : String → KvStoreError
  | SerializationError : String → KvStoreError
  | LockError : String → KvStoreError
deriving DecidableEq

/-! Association lists model the HashMaps of the source (log_index and the
files on disk): lookup finds the first binding, insert replaces the
binding, erase removes it.  Only lookup behaviour matters, matching a
HashMap extensionally. -/

/-- Lookup in an association list (HashMap::get). -/
def alookup {α β : Type} [DecidableEq α] : List (α × β) → α → Option β
  | [], _ => none
  | (a, b) :: rest, x => if a = x then some b else alookup rest x

/-- Remove every binding of a key (HashMap::remove). -/
def aerase {α β : Type} [DecidableEq α] : List (α × β) → α → List (α × β)
  | [], _ => []
  | (a, b) :: rest, x => if a = x then aerase rest x else (a, b) :: aerase rest x

/-- Bind a key to a value (HashMap::insert). -/
def ainsert {α β : Type} [DecidableEq α] (m : List (α × β)) (x : α) (b : β) :
    List (α × β) := (x, b) :: aerase m x

/-! Frames.  A segment file is a list of records; its on-disk image is the
concatenation of their frames.  framesFrom enumerates the (offset, record)
pairs of the frames starting at a given offset, exactly as the sequential
scans of kv_store.rs observe them. -/

/-- Total encoded length of a file's records (the file's on-disk size). -/
def fileLen (rs : List Record) : Nat := (rs.map encSize).sum

/-- Enumerate the (byte offset, record) pairs of a file's frames, starting
at the given offset. -/
def framesFrom (off : Nat) : List Record → List (Nat × Record)
  | [] => []
  | r :: rs => (off, r) :: framesFrom (off + encSize r) rs

/-- Enumerate the (byte offset, record) pairs of a file's frames. -/
def frames (rs : List Record) : List (Nat × Record) := framesFrom 0 rs

/-- Decoding one frame at a byte offset succeeds exactly at frame
boundaries and yields that frame's record (the seek-and-decode read of
KvStore::get). -/
def frameAt (rs : List Record) (off : Nat) : Option Record :=
  ((frames rs).find? (fun fr => fr.1 == off)).map (fun fr => fr.2)

/-! The engine state.  SharedKvStore of kv_store.rs, together with the
persistent directory contents (files).  log_file_readers keeps only the
key set of the readers map: a reader is an open handle on the file, so its
observable content is the file's content and only membership matters. -/

/-- SharedKvStore of kv_store.rs plus the on-disk segment files. -/
structure SharedKvStore where
  log_index : List (String × Loc)
  log_file_readers : List Nat
  active_path : Nat
  files : List (Nat × List Record)
  log_file_paths : List Nat
  log_file_counter : Nat
  bytes_for_compaction : Nat
deriving DecidableEq

/-- COMPACT_AFTER_BYTE_SIZE of kv_store.rs. -/
def COMPACT_AFTER_BYTE_SIZE : Nat := 2048

/-- MAX_FILE_SIZE of kv_store.rs. -/
def MAX_FILE_SIZE : Nat := 20480

/-- On-disk length of the active segment (active_log.file.metadata().len()). -/
def activeLen (st : SharedKvStore) : Nat :=
  fileLen ((alookup st.files st.active_path).getD [])

/-- SharedKvStore::open_new_log_file: increment the counter, open
counter.log with create+append (so an already existing file of that name
keeps its content and receives appends), register a reader, make it the
active log and push its path. -/
def open_new_log_file (st : SharedKvStore) : SharedKvStore :=
  let c := st.log_file_counter + 1
  let existing := (alookup st.files c).getD []
  { st with
      log_file_counter := c
      log_file_readers := c :: st.log_file_readers
      files := ainsert st.files c existing
      active_path := c
      log_file_paths := st.log_file_paths ++ [c] }

/-- SharedKvStore::setup_active_log_file: rotate if the active segment's
on-disk length exceeds MAX_FILE_SIZE. -/
def setup_active_log_file (st : SharedKvStore) : SharedKvStore :=
  if activeLen st > MAX_FILE_SIZE then open_new_log_file st else st

/-- SharedKvStore::serialize_and_write on the successful path: possibly
rotate, then append the record's frame at the end of the active segment,
returning (path, offset before the append, frame size). -/
def serialize_and_write (st : SharedKvStore) (record : Record) :
    Loc × SharedKvStore :=
  let st1 := setup_active_log_file st
  let content := (alookup st1.files st1.active_path).getD []
  ((st1.active_path, fileLen content, encSize record),
   { st1 with files := ainsert st1.files st1.active_path (content ++ [record]) })

/-- SharedKvStore::serialize_and_write with the underlying I/O made
explicit: ioOk = false models bson::encode_document (or the writer)
failing after setup_active_log_file already ran, before any frame byte is
durably appended; the error propagates to the caller. -/
def serialize_and_write_io (ioOk : Bool) (st : SharedKvStore) (record : Record) :
    Except KvStoreError Loc × SharedKvStore :=
  if ioOk then
    (Except.ok (serialize_and_write st record).1, (serialize_and_write st record).2)
  else
    (Except.error KvStoreError.EncoderError, setup_active_log_file st)

/-- Body of the while loop of SharedKvStore::compact for one scanned frame
(offset off, record r) of the segment being compacted (pRem): a live Set
(its key's index entry is exactly (pRem, off)) is re-appended through
serialize_and_write and the index updated; a Set whose key has an entry
pointing elsewhere subtracts that entry's record_size from
bytes_for_compaction with checked_sub saturating at zero; a Delete, or a
Set whose key has no entry, changes nothing. -/
def compactStep (pRem : Nat) (st : SharedKvStore) (off : Nat) (r : Record) :
    SharedKvStore :=
  match r with
  | .Delete _ => st
  | .Set key record_value =>
    match alookup st.log_index key with
    | none => st
    | some (path, location, record_size) =>
      if path = pRem ∧ location = off then
        let res := serialize_and_write st (.Set key record_value)
        { res.2 with log_index := ainsert res.2.log_index key res.1 }
      else
        { st with bytes_for_compaction := st.bytes_for_compaction - record_size }

/-- The while loop of SharedKvStore::compact: scan the frames of the
oldest segment in order. -/
def compactScan (pRem : Nat) : SharedKvStore → List (Nat × Record) → SharedKvStore
  | st, [] => st
  | st, (off, r) :: rest => compactScan pRem (compactStep pRem st off r) rest

/-- The final lines of SharedKvStore::compact: drop the compacted
segment's reader, delete the file (fs::remove_file) and retain only the
other paths. -/
def removeSegment (st : SharedKvStore) (pRem : Nat) : SharedKvStore :=
  { st with
      log_file_readers := st.log_file_readers.filter (fun q => q ≠ pRem)
      files := aerase st.files pRem
      log_file_paths := st.log_file_paths.filter (fun q => q ≠ pRem) }

/-- SharedKvStore::compact: no-op unless bytes_for_compaction exceeds
COMPACT_AFTER_BYTE_SIZE and at least two segments exist; otherwise scan
the oldest segment's frames (a fresh reader over the file, whose content
is not modified by the scan since appends go to the active segment), then
drop its reader, delete the file and remove its path. -/
def compact (st : SharedKvStore) : SharedKvStore :=
  if st.bytes_for_compaction ≤ COMPACT_AFTER_BYTE_SIZE then st
  else if st.log_file_paths.length ≤ 1 then st
  else
    match st.log_file_paths.head? with
    | none => st
    | some pRem =>
      let content := (alookup st.files pRem).getD []
      removeSegment (compactScan pRem st (frames content)) pRem

/-- KvsEngine::get for KvStore: look the key up in the index; on a hit,
seek the reader of that segment (get_mut on the readers map unwraps, so a
missing reader is a panic, modelled as none) to the stored offset and
decode one frame.  some wraps the Result of the source. -/
def get (st : SharedKvStore) (key : String) :
    Option (Except KvStoreError (Option String)) :=
  match alookup st.log_index key with
  | none => some (Except.ok none)
  | some (p, location, _) =>
    if p ∈ st.log_file_readers then
      match frameAt ((alookup st.files p).getD []) location with
      | some (.Set _ value) => some (Except.ok (some value))
      | some (.Delete _) => some (Except.ok none)
      | none => some (Except.error KvStoreError.DecoderError)
    else none

/-- KvsEngine::set for KvStore: append a Set record, add the size of the
superseded record (if the key already had an index entry) to
bytes_for_compaction, overwrite the index entry, then compact. -/
def set (st : SharedKvStore) (key value : String) : SharedKvStore :=
  let res := serialize_and_write st (.Set key value)
  let prev := alookup res.2.log_index key
  let st2 :=
    { res.2 with
        log_index := ainsert res.2.log_index key res.1
        bytes_for_compaction :=
          res.2.bytes_for_compaction +
            (match prev with | some (_, _, sz) => sz | none => 0) }
  compact st2

/-- KvsEngine::remove for KvStore: an absent key fails with
NonExistentKeyError and changes nothing; otherwise the index entry is
removed first, then a Delete record appended, the removed entry's size
added to bytes_for_compaction, and compact invoked. -/
def remove (st : SharedKvStore) (key : String) :
    Except KvStoreError Unit × SharedKvStore :=
  match alookup st.log_index key with
  | none => (Except.error (KvStoreError.NonExistentKeyError key), st)
  | some (_, _, record_size) =>
    let st1 := { st with log_index := aerase st.log_index key }
    let st2 := (serialize_and_write st1 (.Delete key)).2
    let st3 := { st2 with
        bytes_for_compaction := st2.bytes_for_compaction + record_size }
    (Except.ok (), compact st3)

/-- KvsEngine::remove with the append's I/O made explicit, mirroring the
source's order: the index entry is removed before serialize_and_write, and
when the append fails the error returns with bytes_for_compaction not yet
incremented and compact not invoked. -/
def remove_io (ioOk : Bool) (st : SharedKvStore) (key : String) :
    Except KvStoreError Unit × SharedKvStore :=
  match alookup st.log_index key with
  | none => (Except.error (KvStoreError.NonExistentKeyError key), st)
  | some (_, _, record_size) =>
    let st1 := { st with log_index := aerase st.log_index key }
    match serialize_and_write_io ioOk st1 (.Delete key) with
    | (Except.error e, st2) => (Except.error e, st2)
    | (Except.ok _, st2) =>
      let st3 := { st2 with
          bytes_for_compaction := st2.bytes_for_compaction + record_size }
      (Except.ok (), compact st3)

/-! KvStore::open.  The directory listing is a list of (numeric name,
content) pairs, given in ascending modification-time order exactly as the
source sorts it; the names of a directory's entries are pairwise distinct,
so the readers map built by the scan has one entry per listed file and
log_file_counter = readers.len() is the number of listed files. -/

/-- The per-file scan loop of KvStore::open over one file's frames,
carried by the accumulated (log_index, bytes_for_compaction). -/
def scanFrames (p : Nat) :
    List (String × Loc) × Nat → List (Nat × Record) → List (String × Loc) × Nat
  | acc, [] => acc
  | (idx, bytes), (off, r) :: rest =>
    match r with
    | .Set key _ =>
      scanFrames p
        (ainsert idx key (p, off, encSize r),
         bytes + (match alookup idx key with | some (_, _, sz) => sz | none => 0))
        rest
    | .Delete key => scanFrames p (aerase idx key, bytes) rest

/-- The outer scan loop of KvStore::open over the listed files. -/
def scanDisk (acc : List (String × Loc) × Nat) :
    List (Nat × List Record) → List (String × Loc) × Nat
  | [] => acc
  | (p, rs) :: rest => scanDisk (scanFrames p acc (frames rs)) rest

/-- KvStore::open over a directory listing (ascending modification time):
scan every file rebuilding the index, make the last file active, or create
an empty 0.log when the directory is empty; log_file_counter is set to the
number of files the scan put in the readers map. -/
def openKv (dirFiles : List (Nat × List Record)) : SharedKvStore :=
  let scanned := scanDisk ([], 0) dirFiles
  let names := dirFiles.map Prod.fst
  match names.getLast? with
  | some lastName =>
      { log_index := scanned.1
        log_file_readers := names
        active_path := lastName
        files := dirFiles
        log_file_paths := names
        log_file_counter := dirFiles.length
        bytes_for_compaction := scanned.2 }
  | none =>
      { log_index := []
        log_file_readers := [0]
        active_path := 0
        files := [(0, [])]
        log_file_paths := [0]
        log_file_counter := 0
        bytes_for_compaction := 0 }

/-- An engine opened over an empty directory. -/
def openEmpty : SharedKvStore := openKv []

/-! Views of the persistent state. -/

/-- The directory as the engine would find it on reopen: the segment files
in creation (equivalently, for this engine, modification-time) order. -/
def diskOf (st : SharedKvStore) : List (Nat × List Record) :=
  st.log_file_paths.map (fun p => (p, (alookup st.files p).getD []))

/-- The frames of one file that carry a given key, tagged with the file's
path. -/
def recsInF (k : String) (p : Nat) (fs : List (Nat × Record)) :
    List (Nat × Nat × Record) :=
  fs.filterMap (fun fr =>
    if (fr.2).key = k then some (p, fr.1, fr.2) else none)

/-- All records of a given key on a disk, in log order. -/
def keyRecsD (d : List (Nat × List Record)) (k : String) :
    List (Nat × Nat × Record) :=
  match d with
  | [] => []
  | pf :: rest => recsInF k pf.1 (frames pf.2) ++ keyRecsD rest k

/-- Fold a key's records into the index entry the engine's bookkeeping
produces for that key: each Set leaves (path, offset, frame size), each
Delete clears the entry. -/
def updIdx (base : Option Loc) : List (Nat × Nat × Record) → Option Loc
  | [] => base
  | (p, o, r) :: rest =>
    updIdx (match r with
            | .Set _ _ => some (p, o, encSize r)
            | .Delete _ => none) rest

/-- Fold a key's records into the value the log prescribes for that key:
each Set leaves its value, each Delete clears it. -/
def updVal (base : Option String) : List (Nat × Nat × Record) → Option String
  | [] => base
  | (_, _, r) :: rest =>
    updVal (match r with
            | .Set _ v => some v
            | .Delete _ => none) rest

/-- The value a disk's log prescribes for a key: the value of the most
recent Set not superseded by a Delete. -/
def replayD (d : List (Nat × List Record)) (k : String) : Option String :=
  updVal none (keyRecsD d k)

/-! Operation sequences (for the end-to-end claims).  get takes the write
lock but changes no observable state, so sequences are over the mutating
operations; a remove of an absent key returns an error and leaves the
state unchanged. -/

/-- A mutating engine operation. -/
inductive Op where
  | set : String → String → Op
  | remove : String → Op

/-- Apply one operation (a failed remove leaves the state unchanged). -/
def applyOp (st : SharedKvStore) : Op → SharedKvStore
  | .set k v => KvsModel.set st k v
  | .remove k => (KvsModel.remove st k).2

/-- The engine state after running a sequence of operations on an engine
opened over an empty directory. -/
def applySeq (ops : List Op) : SharedKvStore := ops.foldl applyOp openEmpty

/-- One step of the specification map: set binds the key, remove clears
it. -/
def specStep (σ : String → Option String) : Op → String → Option String
  | .set k v => fun q => if q = k then some v else σ q
  | .remove k => fun q => if q = k then none else σ q

/-- The specification value of each key after a sequence of operations:
the value of the most recent set not superseded by a remove.  A remove of
an absent key clears an already absent key, so this also describes
sequences in which every remove succeeds. -/
def specOf (ops : List Op) : String → Option String :=
  ops.foldl specStep (fun _ => none)

/-! The request handler of src/src/server.rs.  A request is one
LF-terminated line; the handler trims trailing whitespace, splits on the
colon and dispatches on the first token.  The engine behind the handler is
abstracted by its three responses (handle_incoming is generic over E:
KvsEngine); the error payloads are irrelevant to the handler, which
discards them with map_or_else. -/

/-- Whitespace as trim_end sees it, restricted to the ASCII whitespace
characters that can reach a request line. -/
def isWs (c : Char) : Bool :=
  c == ' ' || c == '\n' || c == '\t' || c == '\r'

/-- str::trim_end: drop trailing whitespace. -/
def trimEnd (cs : List Char) : List Char :=
  (cs.reverse.dropWhile isWs).reverse

/-- str::split on the colon: always at least one (possibly empty)
section. -/
def splitColon : List Char → List (List Char)
  | [] => [[]]
  | c :: rest =>
    if c = ':' then [] :: splitColon rest
    else
      match splitColon rest with
      | [] => [[c]]
      | t :: ts => (c :: t) :: ts

/-- The engine the handler dispatches to, abstracted to its responses (the
handler is generic over E: KvsEngine and never inspects the error value). -/
structure EngineModel where
  get : String → Except Unit (Option String)
  set : String → String → Except Unit Unit
  remove : String → Except Unit Unit

/-- ServerResult of server.rs. -/
inductive ServerResult where
  | Ok : String → ServerResult
  | Err : String → ServerResult
  | Exit : ServerResult
deriving DecidableEq

/-- handle_incoming of server.rs on one received line: trim, split on the
colon, dispatch on the first token.  The sections iterator's next() calls
are unwrapped in the source, so a missing key or value token is a panic,
modelled as none. -/
def handle_incoming (e : EngineModel) (incoming_string : List Char) :
    Option ServerResult :=
  match splitColon (trimEnd incoming_string) with
  | [] => some (ServerResult.Err "No command sent")
  | command :: rest =>
    if command = "GET".toList then
      match rest with
      | [] => none
      | key :: _ =>
        match e.get (String.mk key) with
        | .error _ => some (ServerResult.Err "Error getting value")
        | .ok none => some (ServerResult.Ok "NONE")
        | .ok (some value) => some (ServerResult.Ok value)
    else if command = "SET".toList then
      match rest with
      | key :: value :: _ =>
        (match e.set (String.mk key) (String.mk value) with
         | .error _ => some (ServerResult.Err "Error setting key")
         | .ok _ => some (ServerResult.Ok ""))
      | _ => none
    else if command = "REMOVE".toList then
      match rest with
      | [] => none
      | key :: _ =>
        match e.remove (String.mk key) with
        | .error _ => some (ServerResult.Err "Key not found")
        | .ok _ => some (ServerResult.Ok "")
    else if command = "EXIT".toList then some ServerResult.Exit
    else some (ServerResult.Err "Command not recognized")

/-- Modelled from the spec: String::as_bytes of the Rust standard library,
the UTF-8 bytes of one character. -/
def utf8Char (c : Char) : List Nat :=
  let n := c.toNat
  if n < 128 then [n]
  else if n < 2048 then [192 + n / 64, 128 + n % 64]
  else if n < 65536 then
    [224 + n / 4096, 128 + (n / 64) % 64, 128 + n % 64]
  else
    [240 + n / 262144, 128 + (n / 4096) % 64, 128 + (n / 64) % 64, 128 + n % 64]

/-- Modelled from the spec: String::as_bytes, the UTF-8 bytes of a
string. -/
def utf8Bytes (s : String) : List Nat := (s.toList.map utf8Char).flatten

/-- The standard base64 alphabet. -/
def b64Alphabet : List Char :=
  "ABCDEFGHIJKLMNOPQRSTUVWXYZabcdefghijklmnopqrstuvwxyz0123456789+/".toList

/-- Digit of the standard base64 alphabet. -/
def b64Char (n : Nat) : Char := b64Alphabet.getD n 'A'

/-- Modelled from the spec: base64::encode of the external base64 crate,
standard alphabet with padding ("the standard base64 encoding of the UTF-8
response body"); the empty body encodes to the empty string. -/
def b64encode : List Nat → List Char
  | [] => []
  | [a] => [b64Char (a / 4), b64Char (a % 4 * 16), '=', '=']
  | [a, b] =>
    [b64Char (a / 4), b64Char (a % 4 * 16 + b / 16), b64Char (b % 16 * 4), '=']
  | a :: b :: c :: rest =>
    [b64Char (a / 4), b64Char (a % 4 * 16 + b / 16),
     b64Char (b % 16 * 4 + c / 64), b64Char (c % 64)] ++ b64encode rest

/-- handle_response of server.rs: the reply written to the stream, the
status tag followed by the base64-encoded body (the Exit arm writes
nothing). -/
def handle_response (result : ServerResult) : List Char :=
  match result with
  | ServerResult.Ok response => "OK:".toList ++ b64encode (utf8Bytes response)
  | ServerResult.Err response => "ERR:".toList ++ b64encode (utf8Bytes response)
  | ServerResult.Exit => []

/-- The full per-connection handling of one line: handle_incoming then
handle_response; none is a panic inside handle_incoming. -/
def handleLine (e : EngineModel) (line : List Char) : Option (List Char) :=
  (handle_incoming e line).map handle_response

/-! Proof-support definitions: well-formed wire tokens, the structural
invariant of reachable engine states, and concrete states and engines used
by counterexamples and witnesses. -/

/-- True when a token does not end in whitespace (so trim_end keeps it
whole). -/
def noTrailWs (t : List Char) : Bool :=
  match t.getLast? with
  | none => true
  | some c => !(isWs c)

/-- A well-formed wire token: no colon (the wire protocol forbids it) and
no trailing whitespace (which trim_end would strip). -/
abbrev goodToken (t : List Char) : Prop :=
  (':' ∉ t) ∧ noTrailWs t = true

/-- Structural invariant of reachable engine states: the segment path list
has no duplicates, the active segment is its last element, paths and files
on disk agree, every path's numeric prefix is bounded by the counter, and
every segment has a reader. -/
structure SInv (st : SharedKvStore) : Prop where
  pathsNodup : st.log_file_paths.Nodup
  activeLast : st.log_file_paths.getLast? = some st.active_path
  pathsFiles : ∀ p, p ∈ st.log_file_paths → (alookup st.files p).isSome
  filesPaths : ∀ p, (alookup st.files p).isSome → p ∈ st.log_file_paths
  counterBound : ∀ p, p ∈ st.log_file_paths → p ≤ st.log_file_counter
  readersPaths : ∀ p, p ∈ st.log_file_paths → p ∈ st.log_file_readers

/-- Full invariant of reachable engine states: the structural invariant,
and an index that agrees with replaying the disk, entry by entry. -/
def Inv (st : SharedKvStore) : Prop :=
  SInv st ∧ ∀ k, alookup st.log_index k = updIdx none (keyRecsD (diskOf st) k)

/-- A state about to compact a segment whose only record is a Delete
tombstone (its key has no index entry), used to exercise the obsolete
branch of the compaction scan. -/
def exC4 : SharedKvStore :=
  { log_index := []
    log_file_readers := [0, 1]
    active_path := 1
    files := [(0, [Record.Delete "a"]), (1, [])]
    log_file_paths := [0, 1]
    log_file_counter := 1
    bytes_for_compaction := 3000 }

/-- A state holding one key, used to exercise remove with a failing
append. -/
def exC10 : SharedKvStore :=
  { log_index := [("a", (0, 0, 28))]
    log_file_readers := [0]
    active_path := 0
    files := [(0, [Record.Set "a" "1"])]
    log_file_paths := [0]
    log_file_counter := 0
    bytes_for_compaction := 0 }

/-- An engine whose three operations all succeed (get finds "v"). -/
def engineOk : EngineModel :=
  { get := fun _ => Except.ok (some "v")
    set := fun _ _ => Except.ok ()
    remove := fun _ => Except.ok () }

/-- An engine whose three operations all fail. -/
def engineErr : EngineModel :=
  { get := fun _ => Except.error ()
    set := fun _ _ => Except.error ()
    remove := fun _ => Except.error () }

/-- The bare append step of serialize_and_write, after the rotation check:
the record's frame goes at the end of the active segment.  By definition,
serialize_and_write st r = (loc, appendActive (setup_active_log_file st) r). -/
def appendActive (st : SharedKvStore) (r : Record) : SharedKvStore :=
  { st with
      files := ainsert st.files st.active_path
        (((alookup st.files st.active_path).getD []) ++ [r]) }

/-! Supporting lemmas. -/

theorem encSize_pos (r : Record) : 0 < encSize r := by
  cases r <;> simp only [encSize] <;> omega

theorem alookup_aerase {α β : Type} [DecidableEq α] (m : List (α × β)) (x y : α) :
    alookup (aerase m x) y = if x = y then none else alookup m y := by
  induction m with
  | nil => simp [aerase, alookup]
  | cons hd tl ih =>
    obtain ⟨a, b⟩ := hd
    by_cases hax : a = x
    · rw [show aerase ((a, b) :: tl) x = aerase tl x by simp [aerase, hax], ih]
      by_cases hxy : x = y
      · simp [hxy]
      · have hay : a ≠ y := by rw [hax]; exact hxy
        simp [hxy, alookup, hay]
    · rw [show aerase ((a, b) :: tl) x = (a, b) :: aerase tl x by simp [aerase, hax]]
      by_cases hay : a = y
      · have hxy : x ≠ y := fun h => hax (hay.trans h.symm)
        simp [alookup, hay, hxy]
      · simp [alookup, hay, ih]

theorem alookup_ainsert {α β : Type} [DecidableEq α] (m : List (α × β)) (x y : α)
    (b : β) :
    alookup (ainsert m x b) y = if x = y then some b else alookup m y := by
  simp only [ainsert, alookup]
  by_cases hxy : x = y <;> simp [hxy, alookup_aerase]

theorem alookup_ainsert_self {α β : Type} [DecidableEq α] (m : List (α × β))
    (x : α) (b : β) : alookup (ainsert m x b) x = some b := by
  simp [alookup_ainsert]

theorem alookup_ainsert_ne {α β : Type} [DecidableEq α] (m : List (α × β))
    (x y : α) (b : β) (h : x ≠ y) :
    alookup (ainsert m x b) y = alookup m y := by
  simp [alookup_ainsert, h]

theorem alookup_aerase_self {α β : Type} [DecidableEq α] (m : List (α × β))
    (x : α) : alookup (aerase m x) x = none := by
  simp [alookup_aerase]

theorem alookup_aerase_ne {α β : Type} [DecidableEq α] (m : List (α × β))
    (x y : α) (h : x ≠ y) : alookup (aerase m x) y = alookup m y := by
  simp [alookup_aerase, h]

theorem fileLen_cons (r : Record) (rs : List Record) :
    fileLen (r :: rs) = encSize r + fileLen rs := by
  simp [fileLen]

theorem fileLen_append (rs ts : List Record) :
    fileLen (rs ++ ts) = fileLen rs + fileLen ts := by
  simp [fileLen]

theorem framesFrom_append (off : Nat) (rs ts : List Record) :
    framesFrom off (rs ++ ts)
      = framesFrom off rs ++ framesFrom (off + fileLen rs) ts := by
  induction rs generalizing off with
  | nil => simp [framesFrom, fileLen]
  | cons r rs ih =>
    show framesFrom off (r :: (rs ++ ts)) = _
    rw [show framesFrom off (r :: (rs ++ ts))
          = (off, r) :: framesFrom (off + encSize r) (rs ++ ts) from rfl, ih,
        fileLen_cons, ← Nat.add_assoc]
    rfl

theorem frames_concat (rs : List Record) (r : Record) :
    frames (rs ++ [r]) = frames rs ++ [(fileLen rs, r)] := by
  simp [frames, framesFrom_append, framesFrom]

theorem framesFrom_offset_le (off o : Nat) (r : Record) (rs : List Record)
    (h : (o, r) ∈ framesFrom off rs) : off ≤ o := by
  induction rs generalizing off with
  | nil => simp [framesFrom] at h
  | cons hd tl ih =>
    simp only [framesFrom, List.mem_cons, Prod.mk.injEq] at h
    rcases h with ⟨ho, _⟩ | h
    · omega
    · have := ih _ h
      omega

theorem framesFrom_offset_inj (off o : Nat) (r₁ r₂ : Record) (rs : List Record)
    (h₁ : (o, r₁) ∈ framesFrom off rs) (h₂ : (o, r₂) ∈ framesFrom off rs) :
    r₁ = r₂ := by
  induction rs generalizing off with
  | nil => simp [framesFrom] at h₁
  | cons hd tl ih =>
    simp only [framesFrom, List.mem_cons, Prod.mk.injEq] at h₁ h₂
    rcases h₁ with ⟨ho₁, hr₁⟩ | h₁ <;> rcases h₂ with ⟨ho₂, hr₂⟩ | h₂
    · rw [hr₁, hr₂]
    · exfalso
      have := framesFrom_offset_le _ _ _ _ h₂
      have := encSize_pos hd
      omega
    · exfalso
      have := framesFrom_offset_le _ _ _ _ h₁
      have := encSize_pos hd
      omega
    · exact ih _ h₁ h₂

theorem frames_offset_inj (o : Nat) (r₁ r₂ : Record) (rs : List Record)
    (h₁ : (o, r₁) ∈ frames rs) (h₂ : (o, r₂) ∈ frames rs) : r₁ = r₂ :=
  framesFrom_offset_inj 0 o r₁ r₂ rs h₁ h₂

theorem frameAt_of_mem (o : Nat) (r : Record) (rs : List Record)
    (h : (o, r) ∈ frames rs) : frameAt rs o = some r := by
  unfold frameAt
  cases hf : (frames rs).find? (fun fr => fr.1 == o) with
  | none =>
    exfalso
    have := List.find?_eq_none.mp hf (o, r) h
    simp at this
  | some fr =>
    have hmem := List.mem_of_find?_eq_some hf
    have hpred := List.find?_some hf
    obtain ⟨o', r'⟩ := fr
    simp only [beq_iff_eq] at hpred
    rw [hpred] at hmem
    have : r' = r := frames_offset_inj o r' r rs hmem h
    simp [this]

/-! Projection lemmas for the write path. -/

theorem setup_log_index (st : SharedKvStore) :
    (setup_active_log_file st).log_index = st.log_index := by
  unfold setup_active_log_file; split <;> rfl

theorem setup_bytes (st : SharedKvStore) :
    (setup_active_log_file st).bytes_for_compaction = st.bytes_for_compaction := by
  unfold setup_active_log_file; split <;> rfl

theorem setup_files_getD (st : SharedKvStore) (p : Nat) :
    (alookup (setup_active_log_file st).files p).getD []
      = (alookup st.files p).getD [] := by
  unfold setup_active_log_file
  split
  · show (alookup (ainsert st.files (st.log_file_counter + 1)
        ((alookup st.files (st.log_file_counter + 1)).getD [])) p).getD [] = _
    by_cases hp : st.log_file_counter + 1 = p
    · rw [← hp, alookup_ainsert_self]; rfl
    · rw [alookup_ainsert_ne _ _ _ _ hp]
  · rfl

theorem saw_log_index (st : SharedKvStore) (r : Record) :
    (serialize_and_write st r).2.log_index = st.log_index := by
  show (setup_active_log_file st).log_index = st.log_index
  exact setup_log_index st

theorem saw_bytes (st : SharedKvStore) (r : Record) :
    (serialize_and_write st r).2.bytes_for_compaction
      = st.bytes_for_compaction := by
  show (setup_active_log_file st).bytes_for_compaction = st.bytes_for_compaction
  exact setup_bytes st

/-! Lemmas on the wire-format helpers. -/

theorem splitColon_ne_nil (cs : List Char) : splitColon cs ≠ [] := by
  cases cs with
  | nil => simp [splitColon]
  | cons c rest =>
    simp only [splitColon]
    by_cases h : c = ':'
    · simp [h]
    · rw [if_neg h]
      cases splitColon rest <;> simp

theorem splitColon_of_noColon (t : List Char) (h : ':' ∉ t) : splitColon t = [t] := by
  induction t with
  | nil => rfl
  | cons c rest ih =>
    have hc : ¬ c = ':' := fun e => h (e ▸ List.mem_cons_self c rest)
    have hr : ':' ∉ rest := fun m => h (List.mem_cons_of_mem c m)
    simp [splitColon, hc, ih hr]

theorem splitColon_append (t rest : List Char) (h : ':' ∉ t) :
    splitColon (t ++ ':' :: rest) = t :: splitColon rest := by
  induction t with
  | nil => simp [splitColon]
  | cons c t ih =>
    have hc : ¬ c = ':' := fun e => h (e ▸ List.mem_cons_self c t)
    have ht : ':' ∉ t := fun m => h (List.mem_cons_of_mem c m)
    show (if c = ':' then [] :: splitColon (t ++ ':' :: rest)
          else match splitColon (t ++ ':' :: rest) with
               | [] => [[c]]
               | q :: qs => (c :: q) :: qs) = (c :: t) :: splitColon rest
    rw [if_neg hc, ih ht]

theorem trimEnd_eq_self (cs : List Char)
    (h : match cs.getLast? with | none => True | some c => isWs c = false) :
    trimEnd cs = cs := by
  unfold trimEnd
  cases hrev : cs.reverse with
  | nil =>
    have : cs = [] := by
      have := congrArg List.reverse hrev
      simpa using this
    simp [this]
  | cons c rest =>
    have hlast : cs.getLast? = some c := by
      rw [← List.head?_reverse, hrev]; rfl
    rw [hlast] at h
    rw [List.dropWhile_cons, if_neg (by simp [h]), ← hrev, List.reverse_reverse]

theorem trimEnd_append_ws (cs : List Char) (w : Char) (hw : isWs w = true) :
    trimEnd (cs ++ [w]) = trimEnd cs := by
  unfold trimEnd
  rw [List.reverse_append]
  simp [List.dropWhile_cons, hw]

theorem noTrailWs_elim (t : List Char) (h : noTrailWs t = true) :
    match t.getLast? with | none => True | some c => isWs c = false := by
  unfold noTrailWs at h
  cases ht : t.getLast? with
  | none => trivial
  | some c =>
    rw [ht] at h
    simpa using h

theorem trimEnd_token_line (pre k : List Char) (c0 : Char)
    (hpre : pre.getLast? = some c0) (hc0 : isWs c0 = false)
    (hk : match k.getLast? with | none => True | some c => isWs c = false) :
    trimEnd (pre ++ k ++ ['\n']) = pre ++ k := by
  rw [show pre ++ k ++ ['\n'] = (pre ++ k) ++ ['\n'] from rfl,
      trimEnd_append_ws _ _ (by rfl)]
  apply trimEnd_eq_self
  cases hk2 : k.getLast? with
  | none =>
    have hknil : k = [] := by
      cases k with
      | nil => rfl
      | cons x xs =>
        exfalso
        obtain ⟨y, hy⟩ := List.getLast?_isSome.mpr (List.cons_ne_nil x xs)
          |> Option.isSome_iff_exists.mp
        rw [hy] at hk2
        cases hk2
    rw [hknil, List.append_nil, hpre]
    exact hc0
  | some d =>
    have hkne : k ≠ [] := by
      intro hk0; rw [hk0] at hk2; cases hk2
    have : (pre ++ k).getLast? = some d := by
      rw [List.getLast?_append_of_ne_nil _ hkne, hk2]
    rw [this]
    rw [hk2] at hk
    exact hk

/-! C3.  A remove of a key absent from the index fails with
NonExistentKey and leaves the state (index, segments, path list,
bytes_for_compaction) entirely unchanged; a subsequent get returns None. -/

/-- C3: for every engine state and key with no index entry, remove returns
the NonExistentKey error and the unchanged state (so no record is
appended anywhere and index, segment list and bytes_for_compaction are
untouched), and get on that key returns None. -/
theorem C3_remove_absent (st : SharedKvStore) (k : String)
    (h : alookup st.log_index k = none) :
    remove st k = (Except.error (KvStoreError.NonExistentKeyError k), st)
    ∧ get st k = some (Except.ok none) := by
  constructor
  · unfold remove; rw [h]
  · unfold get; rw [h]

/-- C3 witness at the engine opened over an empty directory and an absent
key. -/
theorem C3_witness :
    alookup openEmpty.log_index "a" = none
    ∧ remove openEmpty "a"
        = (Except.error (KvStoreError.NonExistentKeyError "a"), openEmpty)
    ∧ get openEmpty "a" = some (Except.ok none) :=
  ⟨by decide, (C3_remove_absent openEmpty "a" (by decide)).1,
   (C3_remove_absent openEmpty "a" (by decide)).2⟩

/-! C4.  What the compaction scan actually does to the meter. -/

/-- C4 counterexample: compacting a segment whose only record is an
obsolete Delete tombstone leaves bytes_for_compaction unchanged, while
the claim demands that the tombstone's frame_size be subtracted. -/
theorem C4_counterexample :
    (compact exC4).bytes_for_compaction
      ≠ exC4.bytes_for_compaction - encSize (Record.Delete "a") := by decide

/-- C4 amended: during the compaction scan a record changes the meter only
when it is a Set whose key has an index entry pointing to a different
(path, offset); what is subtracted (saturating at zero) is that index
entry's recorded size, not the scanned record's own frame size; Delete
records and Sets whose key has no index entry leave the meter unchanged. -/
theorem C4_obsolete_meter (pRem : Nat) (st : SharedKvStore) (off : Nat)
    (r : Record) :
    (compactStep pRem st off r).bytes_for_compaction
      = match r with
        | .Delete _ => st.bytes_for_compaction
        | .Set key _ =>
          match alookup st.log_index key with
          | none => st.bytes_for_compaction
          | some (path, location, record_size) =>
            if path = pRem ∧ location = off then st.bytes_for_compaction
            else st.bytes_for_compaction - record_size := by
  cases r with
  | Delete k => rfl
  | Set k v =>
    simp only [compactStep]
    cases h : alookup st.log_index k with
    | none => rfl
    | some loc =>
      obtain ⟨p, l, sz⟩ := loc
      by_cases hc : p = pRem ∧ l = off
      · simp only [hc.1, hc.2, and_self, if_true]
        exact saw_bytes st (Record.Set k v)
      · simp only [if_neg hc]

/-! C5 counterexample: log_file_counter is not strictly greater than every
segment name's numeric prefix.  Reopening a directory left by compaction
(only 3.log and 4.log remain) sets the counter to the number of files, 2,
which is not above 4; the strict inequality fails even right after opening
an empty directory, where 0.log exists and the counter is 0. -/

/-- C5 counterexample: after KvStore::open on a directory holding exactly
3.log and 4.log (as compaction leaves behind), log_file_counter = 2 is not
strictly greater than the numeric prefix of every existing segment. -/
theorem C5_counterexample :
    ¬ ∀ p ∈ (openKv [(3, []), (4, [])]).files.map Prod.fst,
        p < (openKv [(3, []), (4, [])]).log_file_counter := by decide

/-! C6 and C7: the request handler's replies. -/

/-- C6: for each of the three well-formed command lines the handler writes
a single reply, the tag OK: or ERR: followed by the base64-encoded body;
the body is the stored value on a get hit, the sentinel NONE on a get
miss, empty on a successful set or remove, and the respective error text
with the ERR tag when the engine fails. -/
theorem C6_reply_format (e : EngineModel) (k v : List Char)
    (hk : goodToken k) (hv : goodToken v) :
    (handleLine e ("GET:".toList ++ k ++ ['\n'])
      = some (match e.get (String.mk k) with
          | .ok (some w) => "OK:".toList ++ b64encode (utf8Bytes w)
          | .ok none => "OK:".toList ++ b64encode (utf8Bytes "NONE")
          | .error _ =>
              "ERR:".toList ++ b64encode (utf8Bytes "Error getting value")))
    ∧ (handleLine e ("SET:".toList ++ k ++ [':'] ++ v ++ ['\n'])
      = some (match e.set (String.mk k) (String.mk v) with
          | .ok _ => "OK:".toList ++ b64encode (utf8Bytes "")
          | .error _ =>
              "ERR:".toList ++ b64encode (utf8Bytes "Error setting key")))
    ∧ (handleLine e ("REMOVE:".toList ++ k ++ ['\n'])
      = some (match e.remove (String.mk k) with
          | .ok _ => "OK:".toList ++ b64encode (utf8Bytes "")
          | .error _ =>
              "ERR:".toList ++ b64encode (utf8Bytes "Key not found"))) := by
  obtain ⟨hkc, hkw⟩ := hk
  obtain ⟨hvc, hvw⟩ := hv
  refine ⟨?_, ?_, ?_⟩
  · have htrim : trimEnd ("GET:".toList ++ k ++ ['\n']) = "GET:".toList ++ k :=
      trimEnd_token_line _ _ ':' rfl rfl (noTrailWs_elim _ hkw)
    have hsplit : splitColon ("GET:".toList ++ k) = ["GET".toList, k] := by
      rw [show "GET:".toList ++ k = "GET".toList ++ ':' :: k from rfl,
          splitColon_append _ _ (by decide), splitColon_of_noColon k hkc]
    unfold handleLine handle_incoming
    rw [htrim, hsplit]
    cases hres : e.get (String.mk k) with
    | error u => simp [hres, handle_response]
    | ok w => cases w <;> simp [hres, handle_response]
  · have htrim : trimEnd ("SET:".toList ++ k ++ [':'] ++ v ++ ['\n'])
        = "SET:".toList ++ k ++ [':'] ++ v := by
      rw [show "SET:".toList ++ k ++ [':'] ++ v ++ ['\n']
            = ("SET:".toList ++ k ++ [':']) ++ v ++ ['\n'] from by
          simp [List.append_assoc]]
      exact trimEnd_token_line _ _ ':' (List.getLast?_concat _) rfl (noTrailWs_elim _ hvw)
    have hsplit : splitColon ("SET:".toList ++ k ++ [':'] ++ v)
        = ["SET".toList, k, v] := by
      rw [show "SET:".toList ++ k ++ [':'] ++ v
            = "SET".toList ++ ':' :: (k ++ ':' :: v) from by
          simp [List.append_assoc]]
      rw [splitColon_append _ _ (by decide), splitColon_append _ _ hkc,
          splitColon_of_noColon v hvc]
    unfold handleLine handle_incoming
    rw [htrim, hsplit]
    cases hres : e.set (String.mk k) (String.mk v) with
    | error u =>
      simp [hres, handle_response, (by decide : "SET".toList ≠ "GET".toList)]
    | ok u =>
      simp [hres, handle_response, (by decide : "SET".toList ≠ "GET".toList)]
  · have htrim : trimEnd ("REMOVE:".toList ++ k ++ ['\n'])
        = "REMOVE:".toList ++ k :=
      trimEnd_token_line _ _ ':' rfl rfl (noTrailWs_elim _ hkw)
    have hsplit : splitColon ("REMOVE:".toList ++ k) = ["REMOVE".toList, k] := by
      rw [show "REMOVE:".toList ++ k = "REMOVE".toList ++ ':' :: k from rfl,
          splitColon_append _ _ (by decide), splitColon_of_noColon k hkc]
    unfold handleLine handle_incoming
    rw [htrim, hsplit]
    cases hres : e.remove (String.mk k) with
    | error u =>
      simp [hres, handle_response, (by decide : "REMOVE".toList ≠ "GET".toList),
        (by decide : "REMOVE".toList ≠ "SET".toList)]
    | ok u =>
      simp [hres, handle_response, (by decide : "REMOVE".toList ≠ "GET".toList),
        (by decide : "REMOVE".toList ≠ "SET".toList)]

/-- C6 witness at a concrete key, value and engines. -/
theorem C6_witness :
    goodToken "k".toList ∧ goodToken "v".toList
    ∧ handleLine engineOk ("GET:".toList ++ "k".toList ++ ['\n'])
        = some (match engineOk.get (String.mk "k".toList) with
            | .ok (some w) => "OK:".toList ++ b64encode (utf8Bytes w)
            | .ok none => "OK:".toList ++ b64encode (utf8Bytes "NONE")
            | .error _ =>
                "ERR:".toList ++ b64encode (utf8Bytes "Error getting value")) :=
  ⟨by decide, by decide,
   (C6_reply_format engineOk "k".toList "v".toList (by decide) (by decide)).1⟩

/-- C7 counterexample: the truncated line GET, whose first token matches a
known command but whose key token is missing, makes the handler panic on
unwrap (modelled as none) instead of replying ERR with the text
"Command not recognized". -/
theorem C7_counterexample :
    handle_incoming engineOk ("GET".toList ++ ['\n']) = none := by decide

/-- C7 amended: every line whose first colon-separated token is none of
GET, SET, REMOVE, EXIT receives an ERR reply whose body is the base64
encoding of "Command not recognized"; lines whose first token is
GET, SET or REMOVE but whose key or value tokens are missing instead
panic on the source's unwrap of the sections iterator. -/
theorem C7_unrecognized (e : EngineModel) (line : List Char)
    (h1 : (splitColon (trimEnd line)).headD [] ≠ "GET".toList)
    (h2 : (splitColon (trimEnd line)).headD [] ≠ "SET".toList)
    (h3 : (splitColon (trimEnd line)).headD [] ≠ "REMOVE".toList)
    (h4 : (splitColon (trimEnd line)).headD [] ≠ "EXIT".toList) :
    handleLine e line
      = some ("ERR:".toList ++ b64encode (utf8Bytes "Command not recognized")) := by
  unfold handleLine handle_incoming
  cases hs : splitColon (trimEnd line) with
  | nil => exact absurd hs (splitColon_ne_nil _)
  | cons c rest =>
    rw [hs] at h1 h2 h3 h4
    simp only [List.headD_cons] at h1 h2 h3 h4
    simp only [if_neg h1, if_neg h2, if_neg h3, if_neg h4]
    rfl

/-- C7 witness at a concrete unrecognized line. -/
theorem C7_witness :
    handleLine engineErr ("FOO:x".toList ++ ['\n'])
      = some ("ERR:".toList ++ b64encode (utf8Bytes "Command not recognized")) :=
  C7_unrecognized engineErr ("FOO:x".toList ++ ['\n'])
    (by decide) (by decide) (by decide) (by decide)

/-! C8: segment rotation happens exactly when the active segment already
exceeds MAX_FILE_SIZE before the append, never during the append. -/

/-- C8: serialize_and_write opens a new segment (incrementing the counter
and pushing counter+1.log) if and only if the active segment's length
strictly exceeds MAX_FILE_SIZE = 20480 before the append; the appended
record then lands whole in the target segment, whose length grows by the
record's full frame size with no further check, so a record of any size is
accepted and may leave the segment beyond the rotation size. -/
theorem C8_rotation (st : SharedKvStore) (r : Record)
    (hfresh : alookup st.files (st.log_file_counter + 1) = none) :
    ((serialize_and_write st r).2.log_file_counter = st.log_file_counter + 1
        ↔ MAX_FILE_SIZE < activeLen st)
    ∧ (MAX_FILE_SIZE < activeLen st →
        (serialize_and_write st r).2.log_file_paths
            = st.log_file_paths ++ [st.log_file_counter + 1]
        ∧ activeLen (serialize_and_write st r).2 = encSize r)
    ∧ (¬ MAX_FILE_SIZE < activeLen st →
        (serialize_and_write st r).2.log_file_counter = st.log_file_counter
        ∧ (serialize_and_write st r).2.log_file_paths = st.log_file_paths
        ∧ (serialize_and_write st r).2.active_path = st.active_path
        ∧ activeLen (serialize_and_write st r).2 = activeLen st + encSize r)
    ∧ MAX_FILE_SIZE = 20480 := by
  by_cases hrot : MAX_FILE_SIZE < activeLen st
  · have hsetup : setup_active_log_file st = open_new_log_file st := by
      unfold setup_active_log_file; rw [if_pos hrot]
    have hex : (alookup st.files (st.log_file_counter + 1)).getD [] = [] := by
      rw [hfresh]; rfl
    have hcontent :
        (alookup (setup_active_log_file st).files
            (setup_active_log_file st).active_path).getD [] = [] := by
      rw [hsetup]
      show (alookup (ainsert st.files (st.log_file_counter + 1)
          ((alookup st.files (st.log_file_counter + 1)).getD []))
          (st.log_file_counter + 1)).getD [] = []
      rw [alookup_ainsert_self]
      exact hex
    refine ⟨?_, fun _ => ⟨?_, ?_⟩, fun hn => absurd hrot hn, rfl⟩
    · constructor
      · intro _; exact hrot
      · intro _
        show (setup_active_log_file st).log_file_counter = st.log_file_counter + 1
        rw [hsetup]; rfl
    · show (setup_active_log_file st).log_file_paths
          = st.log_file_paths ++ [st.log_file_counter + 1]
      rw [hsetup]; rfl
    · show fileLen ((alookup (ainsert (setup_active_log_file st).files
          (setup_active_log_file st).active_path
          (((alookup (setup_active_log_file st).files
              (setup_active_log_file st).active_path).getD []) ++ [r]))
          (setup_active_log_file st).active_path).getD []) = encSize r
      rw [alookup_ainsert_self, hcontent]
      simp [fileLen]
  · have hsetup : setup_active_log_file st = st := by
      unfold setup_active_log_file; rw [if_neg hrot]
    refine ⟨?_, fun hy => absurd hy hrot, fun _ => ⟨?_, ?_, ?_, ?_⟩, rfl⟩
    · constructor
      · intro hctr
        exfalso
        have : (setup_active_log_file st).log_file_counter
            = st.log_file_counter + 1 := hctr
        rw [hsetup] at this
        omega
      · intro hy; exact absurd hy hrot
    · show (setup_active_log_file st).log_file_counter = st.log_file_counter
      rw [hsetup]
    · show (setup_active_log_file st).log_file_paths = st.log_file_paths
      rw [hsetup]
    · show (setup_active_log_file st).active_path = st.active_path
      rw [hsetup]
    · show fileLen ((alookup (ainsert (setup_active_log_file st).files
          (setup_active_log_file st).active_path
          (((alookup (setup_active_log_file st).files
              (setup_active_log_file st).active_path).getD []) ++ [r]))
          (setup_active_log_file st).active_path).getD [])
          = activeLen st + encSize r
      rw [alookup_ainsert_self, hsetup, Option.getD_some, fileLen_append]
      rfl

/-- C8 witness at the engine opened over an empty directory (active length
0, no rotation, the appended record's frame lands whole). -/
theorem C8_witness :
    alookup openEmpty.files (openEmpty.log_file_counter + 1) = none
    ∧ (¬ MAX_FILE_SIZE < activeLen openEmpty →
        (serialize_and_write openEmpty (Record.Set "a" "1")).2.log_file_counter
            = openEmpty.log_file_counter
        ∧ (serialize_and_write openEmpty (Record.Set "a" "1")).2.log_file_paths
            = openEmpty.log_file_paths
        ∧ (serialize_and_write openEmpty (Record.Set "a" "1")).2.active_path
            = openEmpty.active_path
        ∧ activeLen (serialize_and_write openEmpty (Record.Set "a" "1")).2
            = activeLen openEmpty + encSize (Record.Set "a" "1")) :=
  ⟨by decide,
   (C8_rotation openEmpty (Record.Set "a" "1") (by decide)).2.2.1⟩

/-! C10: remove is not atomic with respect to a failing append of the
tombstone. -/

/-- C10: when the key is present and the append of the Delete tombstone
fails, remove returns the error with the key already gone from the
in-memory index (a subsequent get returns None), bytes_for_compaction not
incremented, and no record appended to any segment (at most a fresh empty
segment was created by the pre-append rotation check). -/
theorem C10_remove_nonatomic (st : SharedKvStore) (k : String) (loc : Loc)
    (h : alookup st.log_index k = some loc) :
    (remove_io false st k).1 = Except.error KvStoreError.EncoderError
    ∧ alookup (remove_io false st k).2.log_index k = none
    ∧ get (remove_io false st k).2 k = some (Except.ok none)
    ∧ (remove_io false st k).2.bytes_for_compaction = st.bytes_for_compaction
    ∧ ∀ p, (alookup (remove_io false st k).2.files p).getD []
          = (alookup st.files p).getD [] := by
  obtain ⟨p0, o0, s0⟩ := loc
  have hred : remove_io false st k
      = (Except.error KvStoreError.EncoderError,
         setup_active_log_file { st with log_index := aerase st.log_index k }) := by
    unfold remove_io
    rw [h]
    rfl
  rw [hred]
  have hidx : (setup_active_log_file
      { st with log_index := aerase st.log_index k }).log_index
      = aerase st.log_index k := setup_log_index _
  refine ⟨rfl, ?_, ?_, ?_, ?_⟩
  · rw [hidx, alookup_aerase_self]
  · unfold get
    rw [hidx, alookup_aerase_self]
  · rw [setup_bytes]
  · intro p
    rw [setup_files_getD]

/-- C10 witness at a one-key state. -/
theorem C10_witness :
    alookup exC10.log_index "a" = some (0, 0, 28)
    ∧ (remove_io false exC10 "a").1 = Except.error KvStoreError.EncoderError
    ∧ alookup (remove_io false exC10 "a").2.log_index "a" = none
    ∧ get (remove_io false exC10 "a").2 "a" = some (Except.ok none)
    ∧ (remove_io false exC10 "a").2.bytes_for_compaction
        = exC10.bytes_for_compaction :=
  ⟨by decide,
   (C10_remove_nonatomic exC10 "a" (0, 0, 28) (by decide)).1,
   (C10_remove_nonatomic exC10 "a" (0, 0, 28) (by decide)).2.1,
   (C10_remove_nonatomic exC10 "a" (0, 0, 28) (by decide)).2.2.1,
   (C10_remove_nonatomic exC10 "a" (0, 0, 28) (by decide)).2.2.2.1⟩

/-! List helpers. -/

theorem concat_cases {α : Type} (l : List α) : l = [] ∨ ∃ L b, l = L ++ [b] := by
  rcases List.eq_nil_or_concat l with h | ⟨L, b, h⟩
  · exact Or.inl h
  · exact Or.inr ⟨L, b, by simpa [List.concat_eq_append] using h⟩

theorem mem_of_getLast?_eq {α : Type} (l : List α) (a : α)
    (h : l.getLast? = some a) : a ∈ l := by
  rcases concat_cases l with rfl | ⟨L, b, rfl⟩
  · cases h
  · rw [List.getLast?_concat] at h
    have : b = a := Option.some.inj h
    rw [← this]
    exact List.mem_append_right _ (List.mem_cons_self _ _)

theorem getLast?_cons_ne_nil {α : Type} (a : α) (l : List α) (h : l ≠ []) :
    (a :: l).getLast? = l.getLast? := by
  cases l with
  | nil => exact absurd rfl h
  | cons x xs => exact List.getLast?_cons_cons ..

theorem head?_eq_cons {α : Type} (l : List α) (a : α) (h : l.head? = some a) :
    ∃ t, l = a :: t := by
  cases l with
  | nil => cases h
  | cons x xs => exact ⟨xs, by rw [Option.some.inj h]⟩

theorem nodup_concat_iff {α : Type} (l : List α) (a : α) :
    (l ++ [a]).Nodup ↔ a ∉ l ∧ l.Nodup := by
  constructor
  · intro h
    have h2 := List.nodup_append.mp h
    refine ⟨fun hm => ?_, h2.1⟩
    exact h2.2.2 hm (List.mem_cons_self a [])
  · intro ⟨h1, h2⟩
    refine List.nodup_append.mpr ⟨h2, List.nodup_singleton a, ?_⟩
    intro x hx hy
    have hxa : x = a := by simpa using hy
    exact h1 (hxa ▸ hx)

theorem nodup_head_ne_last {α : Type} (l : List α) (a b : α)
    (hnd : l.Nodup) (hlen : 2 ≤ l.length)
    (hh : l.head? = some a) (hl : l.getLast? = some b) : a ≠ b := by
  obtain ⟨t, rfl⟩ := head?_eq_cons l a hh
  have htne : t ≠ [] := by
    intro h0
    rw [h0] at hlen
    simp at hlen
  rw [getLast?_cons_ne_nil _ _ htne] at hl
  have hbt : b ∈ t := mem_of_getLast?_eq _ _ hl
  have hat : a ∉ t := (List.nodup_cons.mp hnd).1
  intro hab
  exact hat (hab ▸ hbt)

theorem alookup_isSome_of_mem_names {α β : Type} [DecidableEq α]
    (m : List (α × β)) (x : α) (h : x ∈ m.map Prod.fst) :
    (alookup m x).isSome := by
  induction m with
  | nil => cases h
  | cons ab rest ih =>
    obtain ⟨a, b⟩ := ab
    by_cases hax : a = x
    · simp [alookup, hax]
    · simp only [List.map_cons, List.mem_cons] at h
      rcases h with h | h
      · exact absurd h.symm hax
      · simp only [alookup, if_neg hax]
        exact ih h

/-! Lemmas on updIdx, updVal and the key-record views. -/

theorem updIdx_append (l₁ l₂ : List (Nat × Nat × Record)) :
    ∀ base, updIdx base (l₁ ++ l₂) = updIdx (updIdx base l₁) l₂ := by
  induction l₁ with
  | nil => intro base; rfl
  | cons x rest ih =>
    intro base
    obtain ⟨p, o, r⟩ := x
    exact ih _

theorem updVal_append (l₁ l₂ : List (Nat × Nat × Record)) :
    ∀ base, updVal base (l₁ ++ l₂) = updVal (updVal base l₁) l₂ := by
  induction l₁ with
  | nil => intro base; rfl
  | cons x rest ih =>
    intro base
    obtain ⟨p, o, r⟩ := x
    exact ih _

theorem updIdx_cons_base_irrel (x : Nat × Nat × Record)
    (l : List (Nat × Nat × Record)) (b₁ b₂ : Option Loc) :
    updIdx b₁ (x :: l) = updIdx b₂ (x :: l) := by
  obtain ⟨p, o, r⟩ := x
  rfl

theorem updVal_cons_base_irrel (x : Nat × Nat × Record)
    (l : List (Nat × Nat × Record)) (b₁ b₂ : Option String) :
    updVal b₁ (x :: l) = updVal b₂ (x :: l) := by
  obtain ⟨p, o, r⟩ := x
  rfl

theorem updIdx_concat (base : Option Loc) (l : List (Nat × Nat × Record))
    (p o : Nat) (r : Record) :
    updIdx base (l ++ [(p, o, r)])
      = match r with
        | .Set _ _ => some (p, o, encSize r)
        | .Delete _ => none := by
  rw [updIdx_append]
  cases r <;> rfl

theorem updVal_concat (base : Option String) (l : List (Nat × Nat × Record))
    (p o : Nat) (r : Record) :
    updVal base (l ++ [(p, o, r)])
      = match r with
        | .Set _ v => some v
        | .Delete _ => none := by
  rw [updVal_append]
  cases r <;> rfl

theorem keyRecsD_cons (pf : Nat × List Record) (d : List (Nat × List Record))
    (k : String) :
    keyRecsD (pf :: d) k = recsInF k pf.1 (frames pf.2) ++ keyRecsD d k := rfl

theorem keyRecsD_append (d₁ d₂ : List (Nat × List Record)) (k : String) :
    keyRecsD (d₁ ++ d₂) k = keyRecsD d₁ k ++ keyRecsD d₂ k := by
  induction d₁ with
  | nil => rfl
  | cons pf rest ih =>
    show recsInF k pf.1 (frames pf.2) ++ keyRecsD (rest ++ d₂) k
        = (recsInF k pf.1 (frames pf.2) ++ keyRecsD rest k) ++ keyRecsD d₂ k
    rw [ih, List.append_assoc]

theorem recsInF_append (k : String) (p : Nat) (fs gs : List (Nat × Record)) :
    recsInF k p (fs ++ gs) = recsInF k p fs ++ recsInF k p gs := by
  simp [recsInF, List.filterMap_append]

theorem recsInF_single (k : String) (p : Nat) (o : Nat) (r : Record) :
    recsInF k p [(o, r)] = if r.key = k then [(p, o, r)] else [] := by
  by_cases h : r.key = k <;> simp [recsInF, h]

theorem mem_recsInF (k : String) (p q o : Nat) (r : Record)
    (fs : List (Nat × Record)) (h : (q, o, r) ∈ recsInF k p fs) :
    q = p ∧ (o, r) ∈ fs ∧ r.key = k := by
  simp only [recsInF, List.mem_filterMap] at h
  obtain ⟨⟨o', r'⟩, hmem, hif⟩ := h
  by_cases hkey : r'.key = k
  · rw [if_pos hkey] at hif
    simp only [Option.some.injEq, Prod.mk.injEq] at hif
    obtain ⟨h4, h6, h7⟩ := hif
    refine ⟨h4.symm, ?_, ?_⟩
    · rw [← h6, ← h7]
      exact hmem
    · rw [← h7]
      exact hkey
  · rw [if_neg hkey] at hif
    cases hif

theorem mem_keyRecsD (d : List (Nat × List Record)) (k : String) (q o : Nat)
    (r : Record) (h : (q, o, r) ∈ keyRecsD d k) :
    ∃ rs, (q, rs) ∈ d ∧ (o, r) ∈ frames rs ∧ r.key = k := by
  induction d with
  | nil => cases h
  | cons pf rest ih =>
    obtain ⟨p0, rs0⟩ := pf
    simp only [keyRecsD, List.mem_append] at h
    rcases h with h | h
    · obtain ⟨hq, hmem, hkey⟩ := mem_recsInF _ _ _ _ _ _ h
      exact ⟨rs0, by rw [hq]; exact List.mem_cons_self _ _, hmem, hkey⟩
    · obtain ⟨rs, hm, hf, hk⟩ := ih h
      exact ⟨rs, List.mem_cons_of_mem _ hm, hf, hk⟩

theorem keyRecs_mem_state (st : SharedKvStore) (k : String) (q o : Nat)
    (r : Record) (h : (q, o, r) ∈ keyRecsD (diskOf st) k) :
    q ∈ st.log_file_paths
    ∧ (o, r) ∈ frames ((alookup st.files q).getD [])
    ∧ r.key = k := by
  obtain ⟨rs, hin, hf, hk⟩ := mem_keyRecsD _ _ _ _ _ h
  simp only [diskOf, List.mem_map] at hin
  obtain ⟨p, hp, heq⟩ := hin
  simp only [Prod.mk.injEq] at heq
  obtain ⟨h1, h2⟩ := heq
  subst h1
  rw [← h2] at hf
  exact ⟨hp, hf, hk⟩

/-! Structural-invariant lemmas for the write path. -/

theorem sinv_bytes (st : SharedKvStore) (b : Nat) (h : SInv st) :
    SInv { st with bytes_for_compaction := b } :=
  ⟨h.pathsNodup, h.activeLast, h.pathsFiles, h.filesPaths, h.counterBound,
   h.readersPaths⟩

theorem sinv_idx (st : SharedKvStore) (m : List (String × Loc)) (h : SInv st) :
    SInv { st with log_index := m } :=
  ⟨h.pathsNodup, h.activeLast, h.pathsFiles, h.filesPaths, h.counterBound,
   h.readersPaths⟩

theorem sinv_active_mem (st : SharedKvStore) (h : SInv st) :
    st.active_path ∈ st.log_file_paths :=
  mem_of_getLast?_eq _ _ h.activeLast

theorem sinv_paths_ne_nil (st : SharedKvStore) (h : SInv st) :
    st.log_file_paths ≠ [] := by
  intro h0
  have h1 := h.activeLast
  rw [h0] at h1
  cases h1

theorem sinv_fresh_lookup (st : SharedKvStore) (h : SInv st) :
    alookup st.files (st.log_file_counter + 1) = none := by
  cases hx : alookup st.files (st.log_file_counter + 1) with
  | none => rfl
  | some rs =>
    have hmem := h.filesPaths _ (by rw [hx]; rfl)
    have := h.counterBound _ hmem
    omega

theorem sinv_fresh_not_mem (st : SharedKvStore) (h : SInv st) :
    st.log_file_counter + 1 ∉ st.log_file_paths := by
  intro hm
  have := h.counterBound _ hm
  omega

theorem sinv_paths_decomp (st : SharedKvStore) (h : SInv st) :
    ∃ pre, st.log_file_paths = pre ++ [st.active_path]
      ∧ st.active_path ∉ pre := by
  rcases concat_cases st.log_file_paths with h0 | ⟨L, b, hL⟩
  · exact absurd h0 (sinv_paths_ne_nil st h)
  · have hb : b = st.active_path := by
      have h1 := h.activeLast
      rw [hL, List.getLast?_concat] at h1
      exact Option.some.inj h1
    subst hb
    have hnd := h.pathsNodup
    rw [hL] at hnd
    exact ⟨L, hL, ((nodup_concat_iff _ _).mp hnd).1⟩

theorem head?_append_left {α : Type} (l t : List α) (h : l ≠ []) :
    (l ++ t).head? = l.head? := by
  cases l with
  | nil => exact absurd rfl h
  | cons x xs => rfl

theorem open_new_paths (st : SharedKvStore) :
    (open_new_log_file st).log_file_paths
      = st.log_file_paths ++ [st.log_file_counter + 1] := rfl

theorem open_new_files (st : SharedKvStore) :
    (open_new_log_file st).files
      = ainsert st.files (st.log_file_counter + 1)
          ((alookup st.files (st.log_file_counter + 1)).getD []) := rfl

theorem open_new_sinv (st : SharedKvStore) (h : SInv st) :
    SInv (open_new_log_file st) := by
  have hfresh := sinv_fresh_not_mem st h
  constructor
  · show (st.log_file_paths ++ [st.log_file_counter + 1]).Nodup
    exact (nodup_concat_iff _ _).mpr ⟨hfresh, h.pathsNodup⟩
  · show (st.log_file_paths ++ [st.log_file_counter + 1]).getLast?
        = some (st.log_file_counter + 1)
    exact List.getLast?_concat _
  · intro p hp
    show (alookup (ainsert st.files (st.log_file_counter + 1)
        ((alookup st.files (st.log_file_counter + 1)).getD [])) p).isSome
    by_cases hpc : st.log_file_counter + 1 = p
    · rw [← hpc, alookup_ainsert_self]; rfl
    · rw [alookup_ainsert_ne _ _ _ _ hpc]
      rcases List.mem_append.mp hp with hp | hp
      · exact h.pathsFiles p hp
      · have hp2 : p = st.log_file_counter + 1 := by simpa using hp
        exact absurd hp2.symm hpc
  · intro p hp
    show p ∈ st.log_file_paths ++ [st.log_file_counter + 1]
    by_cases hpc : st.log_file_counter + 1 = p
    · exact List.mem_append_right _ (by rw [hpc]; exact List.mem_cons_self _ _)
    · rw [show (open_new_log_file st).files
            = ainsert st.files (st.log_file_counter + 1)
                ((alookup st.files (st.log_file_counter + 1)).getD []) from rfl,
          alookup_ainsert_ne _ _ _ _ hpc] at hp
      exact List.mem_append_left _ (h.filesPaths p hp)
  · intro p hp
    show p ≤ st.log_file_counter + 1
    rcases List.mem_append.mp hp with hp | hp
    · have := h.counterBound p hp
      omega
    · have : p = st.log_file_counter + 1 := by simpa using hp
      omega
  · intro p hp
    show p ∈ (st.log_file_counter + 1) :: st.log_file_readers
    rcases List.mem_append.mp hp with hp | hp
    · exact List.mem_cons_of_mem _ (h.readersPaths p hp)
    · have : p = st.log_file_counter + 1 := by simpa using hp
      rw [this]
      exact List.mem_cons_self _ _

theorem keyRecsD_map_congr (paths : List Nat) (c₁ c₂ : Nat → List Record)
    (k : String) (h : ∀ p ∈ paths, c₁ p = c₂ p) :
    keyRecsD (paths.map (fun p => (p, c₁ p))) k
      = keyRecsD (paths.map (fun p => (p, c₂ p))) k := by
  rw [List.map_congr_left (fun p hp => by rw [h p hp])]

theorem keyRecsD_map_concat (paths : List Nat) (c : Nat → List Record)
    (a : Nat) (k : String) :
    keyRecsD ((paths ++ [a]).map (fun p => (p, c p))) k
      = keyRecsD (paths.map (fun p => (p, c p))) k ++ recsInF k a (frames (c a)) := by
  rw [List.map_append, keyRecsD_append]
  simp [keyRecsD]

theorem open_new_keyRecs (st : SharedKvStore) (h : SInv st) (k : String) :
    keyRecsD (diskOf (open_new_log_file st)) k = keyRecsD (diskOf st) k := by
  have hfreshL := sinv_fresh_lookup st h
  have hfreshM := sinv_fresh_not_mem st h
  show keyRecsD ((st.log_file_paths ++ [st.log_file_counter + 1]).map
      (fun p => (p, (alookup (open_new_log_file st).files p).getD []))) k
    = keyRecsD (st.log_file_paths.map
        (fun p => (p, (alookup st.files p).getD []))) k
  rw [keyRecsD_map_concat st.log_file_paths
      (fun p => (alookup (open_new_log_file st).files p).getD [])
      (st.log_file_counter + 1) k]
  rw [keyRecsD_map_congr st.log_file_paths
      (fun p => (alookup (open_new_log_file st).files p).getD [])
      (fun p => (alookup st.files p).getD []) k ?hcongr]
  case hcongr =>
    intro p hp
    have hne : st.log_file_counter + 1 ≠ p := by
      intro e
      exact hfreshM (e ▸ hp)
    dsimp only
    rw [open_new_files, alookup_ainsert_ne _ _ _ _ hne]
  have hnila : (alookup (open_new_log_file st).files
      (st.log_file_counter + 1)).getD [] = [] := by
    rw [open_new_files, alookup_ainsert_self, hfreshL]
    rfl
  rw [hnila]
  show keyRecsD _ k ++ recsInF k _ [] = keyRecsD _ k
  simp [recsInF]

theorem setup_sinv (st : SharedKvStore) (h : SInv st) :
    SInv (setup_active_log_file st) := by
  unfold setup_active_log_file
  split
  · exact open_new_sinv st h
  · exact h

theorem setup_keyRecs (st : SharedKvStore) (h : SInv st) (k : String) :
    keyRecsD (diskOf (setup_active_log_file st)) k
      = keyRecsD (diskOf st) k := by
  unfold setup_active_log_file
  split
  · exact open_new_keyRecs st h k
  · rfl

theorem setup_head (st : SharedKvStore) (h : SInv st) :
    (setup_active_log_file st).log_file_paths.head?
      = st.log_file_paths.head? := by
  unfold setup_active_log_file
  split
  · rw [open_new_paths]
    exact head?_append_left _ _ (sinv_paths_ne_nil st h)
  · rfl

theorem setup_len (st : SharedKvStore) :
    st.log_file_paths.length ≤ (setup_active_log_file st).log_file_paths.length := by
  unfold setup_active_log_file
  split
  · rw [open_new_paths]
    simp
  · exact Nat.le_refl _

theorem setup_active_choice (st : SharedKvStore) :
    (setup_active_log_file st).active_path = st.active_path
    ∨ (setup_active_log_file st).active_path = st.log_file_counter + 1 := by
  unfold setup_active_log_file
  split
  · exact Or.inr rfl
  · exact Or.inl rfl

theorem setup_counter_ge (st : SharedKvStore) :
    st.log_file_counter ≤ (setup_active_log_file st).log_file_counter := by
  unfold setup_active_log_file
  split
  · show st.log_file_counter ≤ st.log_file_counter + 1
    omega
  · exact Nat.le_refl _

/-! The append itself: on top of setup_active_log_file, one record is
appended at the end of the active segment. -/

theorem append_active_sinv (st : SharedKvStore) (r : Record) (h : SInv st) :
    SInv (appendActive st r) := by
  constructor
  · exact h.pathsNodup
  · exact h.activeLast
  · intro p hp
    show (alookup (ainsert st.files st.active_path
        (((alookup st.files st.active_path).getD []) ++ [r])) p).isSome
    by_cases hpa : st.active_path = p
    · rw [← hpa, alookup_ainsert_self]; rfl
    · rw [alookup_ainsert_ne _ _ _ _ hpa]
      exact h.pathsFiles p hp
  · intro p hp
    show p ∈ st.log_file_paths
    by_cases hpa : st.active_path = p
    · rw [← hpa]
      exact sinv_active_mem st h
    · have hp2 : (alookup (ainsert st.files st.active_path
          (((alookup st.files st.active_path).getD []) ++ [r])) p).isSome := hp
      rw [alookup_ainsert_ne _ _ _ _ hpa] at hp2
      exact h.filesPaths p hp2
  · exact h.counterBound
  · exact h.readersPaths

theorem append_active_keyRecs (st : SharedKvStore) (r : Record) (h : SInv st)
    (k : String) :
    keyRecsD (diskOf (appendActive st r)) k
      = keyRecsD (diskOf st) k
        ++ (if r.key = k then
              [(st.active_path,
                fileLen ((alookup st.files st.active_path).getD []), r)]
            else []) := by
  obtain ⟨pre, hdecomp, hnotin⟩ := sinv_paths_decomp st h
  show keyRecsD (st.log_file_paths.map
      (fun p => (p, (alookup (ainsert st.files st.active_path
        (((alookup st.files st.active_path).getD []) ++ [r])) p).getD []))) k = _
  show _ = keyRecsD (st.log_file_paths.map
      (fun p => (p, (alookup st.files p).getD []))) k ++ _
  rw [hdecomp]
  rw [keyRecsD_map_concat pre
      (fun p => (alookup (ainsert st.files st.active_path
        (((alookup st.files st.active_path).getD []) ++ [r])) p).getD [])
      st.active_path k]
  rw [keyRecsD_map_concat pre
      (fun p => (alookup st.files p).getD []) st.active_path k]
  rw [keyRecsD_map_congr pre
      (fun p => (alookup (ainsert st.files st.active_path
        (((alookup st.files st.active_path).getD []) ++ [r])) p).getD [])
      (fun p => (alookup st.files p).getD []) k ?hcongr]
  case hcongr =>
    intro p hp
    have hne : st.active_path ≠ p := by
      intro e
      exact hnotin (e ▸ hp)
    dsimp only
    rw [alookup_ainsert_ne _ _ _ _ hne]
  have hself : (alookup (ainsert st.files st.active_path
      (((alookup st.files st.active_path).getD []) ++ [r]))
      st.active_path).getD []
      = ((alookup st.files st.active_path).getD []) ++ [r] := by
    rw [alookup_ainsert_self]
    rfl
  rw [hself, frames_concat, recsInF_append, recsInF_single, List.append_assoc]

theorem saw_state_eq (st : SharedKvStore) (r : Record) :
    (serialize_and_write st r).2 = appendActive (setup_active_log_file st) r := rfl

theorem saw_loc_eq (st : SharedKvStore) (r : Record) :
    (serialize_and_write st r).1
      = ((setup_active_log_file st).active_path,
         fileLen ((alookup (setup_active_log_file st).files
             (setup_active_log_file st).active_path).getD []),
         encSize r) := rfl

theorem saw_sinv (st : SharedKvStore) (r : Record) (h : SInv st) :
    SInv (serialize_and_write st r).2 := by
  rw [saw_state_eq]
  exact append_active_sinv _ r (setup_sinv st h)

theorem saw_keyRecs (st : SharedKvStore) (r : Record) (h : SInv st) (k : String) :
    keyRecsD (diskOf (serialize_and_write st r).2) k
      = keyRecsD (diskOf st) k
        ++ (if r.key = k then
              [((serialize_and_write st r).1.1,
                (serialize_and_write st r).1.2.1, r)]
            else []) := by
  rw [saw_state_eq,
      append_active_keyRecs (setup_active_log_file st) r (setup_sinv st h) k,
      setup_keyRecs st h k]
  rfl

theorem saw_head (st : SharedKvStore) (r : Record) (h : SInv st) :
    (serialize_and_write st r).2.log_file_paths.head?
      = st.log_file_paths.head? := by
  show (setup_active_log_file st).log_file_paths.head? = _
  exact setup_head st h

theorem saw_len (st : SharedKvStore) (r : Record) :
    st.log_file_paths.length ≤ (serialize_and_write st r).2.log_file_paths.length := by
  show st.log_file_paths.length ≤ (setup_active_log_file st).log_file_paths.length
  exact setup_len st

theorem saw_files_stable (st : SharedKvStore) (r : Record) (p : Nat)
    (hp : p ≠ (serialize_and_write st r).1.1) :
    alookup (serialize_and_write st r).2.files p = alookup st.files p := by
  have hp1 : (setup_active_log_file st).active_path ≠ p := by
    intro e
    exact hp (e.symm ▸ rfl)
  rw [saw_state_eq]
  show alookup (ainsert (setup_active_log_file st).files
      (setup_active_log_file st).active_path _) p = _
  rw [alookup_ainsert_ne _ _ _ _ hp1]
  unfold setup_active_log_file at hp1 ⊢
  split
  · rename_i hrot
    rw [if_pos hrot] at hp1
    exact alookup_ainsert_ne _ _ _ _ hp1
  · rfl

theorem saw_active_choice (st : SharedKvStore) (r : Record) :
    (serialize_and_write st r).2.active_path = st.active_path
    ∨ (serialize_and_write st r).2.active_path = st.log_file_counter + 1 := by
  show (setup_active_log_file st).active_path = st.active_path
      ∨ (setup_active_log_file st).active_path = st.log_file_counter + 1
  exact setup_active_choice st

theorem saw_loc_active (st : SharedKvStore) (r : Record) :
    (serialize_and_write st r).1.1 = (serialize_and_write st r).2.active_path := rfl

theorem saw_loc_eta (st : SharedKvStore) (r : Record) :
    (serialize_and_write st r).1
      = ((serialize_and_write st r).1.1,
         (serialize_and_write st r).1.2.1, encSize r) := rfl

/-! From the index relation to the shape of a key's record list. -/

theorem idx_entry_last (d : List (Nat × List Record)) (idx : List (String × Loc))
    (k : String) (p o sz : Nat)
    (hrel : alookup idx k = updIdx none (keyRecsD d k))
    (hsome : alookup idx k = some (p, o, sz)) :
    ∃ l v, keyRecsD d k = l ++ [(p, o, Record.Set k v)]
      ∧ sz = encSize (Record.Set k v) := by
  rw [hsome] at hrel
  rcases concat_cases (keyRecsD d k) with hnil | ⟨l, x, hconcat⟩
  · rw [hnil] at hrel
    simp [updIdx] at hrel
  · obtain ⟨q, o2, r2⟩ := x
    rw [hconcat, updIdx_concat] at hrel
    cases r2 with
    | Delete k2 => simp at hrel
    | Set k2 v2 =>
      simp only [Option.some.injEq, Prod.mk.injEq] at hrel
      obtain ⟨hq, ho, hsz⟩ := hrel
      have hmem : (q, o2, Record.Set k2 v2) ∈ keyRecsD d k := by
        rw [hconcat]
        exact List.mem_append_right _ (List.mem_cons_self _ _)
      obtain ⟨rs, _, _, hkey⟩ := mem_keyRecsD _ _ _ _ _ hmem
      have hk2 : k2 = k := hkey
      subst hk2
      refine ⟨l, v2, ?_, hsz⟩
      rw [hconcat, hq, ho]

theorem replay_none_of_idx_none (d : List (Nat × List Record))
    (idx : List (String × Loc)) (k : String)
    (hrel : alookup idx k = updIdx none (keyRecsD d k))
    (hnone : alookup idx k = none) :
    updVal none (keyRecsD d k) = none := by
  rw [hnone] at hrel
  rcases concat_cases (keyRecsD d k) with hnil | ⟨l, x, hconcat⟩
  · rw [hnil]
    rfl
  · obtain ⟨q, o2, r2⟩ := x
    rw [hconcat, updIdx_concat] at hrel
    rw [hconcat, updVal_concat]
    cases r2 with
    | Delete _ => rfl
    | Set k2 v2 => simp at hrel

/-! What get observes, given the index relation. -/

theorem get_spec (st : SharedKvStore)
    (hidx : ∀ q, alookup st.log_index q = updIdx none (keyRecsD (diskOf st) q))
    (hreaders : ∀ p, p ∈ st.log_file_paths → p ∈ st.log_file_readers)
    (k : String) :
    get st k = some (Except.ok (replayD (diskOf st) k)) := by
  have h := hidx k
  unfold get replayD
  rcases concat_cases (keyRecsD (diskOf st) k) with hnil | ⟨l, x, hconcat⟩
  · rw [hnil] at h ⊢
    rw [show updIdx none ([] : List (Nat × Nat × Record)) = none from rfl] at h
    rw [h]
    rfl
  · obtain ⟨q, o, r⟩ := x
    rw [hconcat, updIdx_concat] at h
    rw [hconcat, updVal_concat]
    cases r with
    | Delete k0 =>
      rw [h]
    | Set k0 v0 =>
      rw [h]
      have hmem : (q, o, Record.Set k0 v0) ∈ keyRecsD (diskOf st) k := by
        rw [hconcat]
        exact List.mem_append_right _ (List.mem_cons_self _ _)
      obtain ⟨hqp, hframe, hkey⟩ := keyRecs_mem_state st k q o _ hmem
      have hqr : q ∈ st.log_file_readers := hreaders q hqp
      have hfa : frameAt ((alookup st.files q).getD []) o
          = some (Record.Set k0 v0) := frameAt_of_mem _ _ _ hframe
      simp only [if_pos hqr, hfa]

/-! The compaction scan, one frame at a time. -/

theorem compactStep_spec (pRem : Nat) (content : List Record)
    (st : SharedKvStore) (c : Nat) (r : Record) (rem : List (Nat × Record))
    (hsinv : SInv st)
    (hrel : ∀ q, alookup st.log_index q = updIdx none (keyRecsD (diskOf st) q))
    (hhead : st.log_file_paths.head? = some pRem)
    (hlen : 2 ≤ st.log_file_paths.length)
    (hcont : alookup st.files pRem = some content)
    (hfr : (c, r) ∈ frames content)
    (hpend : ∀ q p o sz, alookup st.log_index q = some (p, o, sz) → p = pRem →
        ∃ v, (o, Record.Set q v) ∈ (c, r) :: rem) :
    SInv (compactStep pRem st c r)
    ∧ (∀ q, alookup (compactStep pRem st c r).log_index q
        = updIdx none (keyRecsD (diskOf (compactStep pRem st c r)) q))
    ∧ (∀ q, updVal none (keyRecsD (diskOf (compactStep pRem st c r)) q)
        = updVal none (keyRecsD (diskOf st) q))
    ∧ (compactStep pRem st c r).log_file_paths.head? = some pRem
    ∧ 2 ≤ (compactStep pRem st c r).log_file_paths.length
    ∧ alookup (compactStep pRem st c r).files pRem = some content
    ∧ (∀ q p o sz, alookup (compactStep pRem st c r).log_index q = some (p, o, sz) →
        p = pRem → ∃ v, (o, Record.Set q v) ∈ rem) := by
  cases r with
  | Delete k0 =>
    refine ⟨hsinv, hrel, fun q => rfl, hhead, hlen, hcont, ?_⟩
    intro q p o sz hq hp
    obtain ⟨v, hv⟩ := hpend q p o sz hq hp
    rcases List.mem_cons.mp hv with hv | hv
    · exfalso
      simp only [Prod.mk.injEq] at hv
      exact Record.noConfusion hv.2
    · exact ⟨v, hv⟩
  | Set k0 v0 =>
    cases hl : alookup st.log_index k0 with
    | none =>
      have hstep : compactStep pRem st c (Record.Set k0 v0) = st := by
        simp only [compactStep]
        rw [hl]
      rw [hstep]
      refine ⟨hsinv, hrel, fun q => rfl, hhead, hlen, hcont, ?_⟩
      intro q p o sz hq hp
      obtain ⟨v, hv⟩ := hpend q p o sz hq hp
      rcases List.mem_cons.mp hv with hv | hv
      · exfalso
        simp only [Prod.mk.injEq, Record.Set.injEq] at hv
        obtain ⟨ho, hqk, hvv⟩ := hv
        rw [hqk] at hq
        rw [hq] at hl
        cases hl
      · exact ⟨v, hv⟩
    | some loc =>
      obtain ⟨p1, l1, sz1⟩ := loc
      by_cases hcnd : p1 = pRem ∧ l1 = c
      · -- the live copy: re-append and point the index at the new location
        have hstep : compactStep pRem st c (Record.Set k0 v0)
            = { (serialize_and_write st (Record.Set k0 v0)).2 with
                log_index := ainsert
                  (serialize_and_write st (Record.Set k0 v0)).2.log_index k0
                  (serialize_and_write st (Record.Set k0 v0)).1 } := by
          simp only [compactStep]
          rw [hl]
          simp only [if_pos hcnd]
        rw [hstep]
        have hsinv2 := saw_sinv st (Record.Set k0 v0) hsinv
        have hactne : (serialize_and_write st (Record.Set k0 v0)).2.active_path
            ≠ pRem := by
          rcases saw_active_choice st (Record.Set k0 v0) with ha | ha
          · rw [ha]
            intro e
            exact (nodup_head_ne_last _ _ _ hsinv.pathsNodup hlen hhead
              hsinv.activeLast) e.symm
          · rw [ha]
            intro e
            have hpm : pRem ∈ st.log_file_paths := by
              obtain ⟨t, ht⟩ := head?_eq_cons _ _ hhead
              rw [ht]
              exact List.mem_cons_self _ _
            have := hsinv.counterBound _ hpm
            omega
        have hlocne : (serialize_and_write st (Record.Set k0 v0)).1.1 ≠ pRem := by
          rw [saw_loc_active]
          exact hactne
        refine ⟨?_, ?_, ?_, ?_, ?_, ?_, ?_⟩
        · exact ⟨hsinv2.pathsNodup, hsinv2.activeLast, hsinv2.pathsFiles,
            hsinv2.filesPaths, hsinv2.counterBound, hsinv2.readersPaths⟩
        · intro q
          show alookup (ainsert (serialize_and_write st (Record.Set k0 v0)).2.log_index
              k0 (serialize_and_write st (Record.Set k0 v0)).1) q
            = updIdx none
                (keyRecsD (diskOf (serialize_and_write st (Record.Set k0 v0)).2) q)
          rw [saw_keyRecs st (Record.Set k0 v0) hsinv q]
          by_cases hq : k0 = q
          · rw [← hq, alookup_ainsert_self, if_pos (show Record.key
                (Record.Set k0 v0) = k0 from rfl), updIdx_concat]
            rw [saw_loc_eta st (Record.Set k0 v0)]
          · rw [alookup_ainsert_ne _ _ _ _ hq,
                if_neg (show ¬ Record.key (Record.Set k0 v0) = q from hq),
                List.append_nil, saw_log_index]
            exact hrel q
        · intro q
          show updVal none
              (keyRecsD (diskOf (serialize_and_write st (Record.Set k0 v0)).2) q)
            = updVal none (keyRecsD (diskOf st) q)
          rw [saw_keyRecs st (Record.Set k0 v0) hsinv q]
          by_cases hq : k0 = q
          · rw [if_pos (show Record.key (Record.Set k0 v0) = q from hq),
                updVal_concat]
            obtain ⟨l2, v2, hl2, _⟩ :=
              idx_entry_last _ _ _ _ _ _ (hrel k0) (by rw [hl, hcnd.1, hcnd.2])
            have hv2 : v2 = v0 := by
              have hmem2 : (pRem, c, Record.Set k0 v2)
                  ∈ keyRecsD (diskOf st) k0 := by
                rw [hl2]
                exact List.mem_append_right _ (List.mem_cons_self _ _)
              obtain ⟨_, hframe2, _⟩ := keyRecs_mem_state st k0 pRem c _ hmem2
              have hcontD : (alookup st.files pRem).getD [] = content := by
                rw [hcont]
                rfl
              rw [hcontD] at hframe2
              have := frames_offset_inj c _ _ content hframe2 hfr
              exact (Record.Set.injEq .. ▸ this).2
            rw [← hq, hl2, updVal_concat, hv2]
          · rw [if_neg (show ¬ Record.key (Record.Set k0 v0) = q from hq),
                List.append_nil]
        · show (serialize_and_write st (Record.Set k0 v0)).2.log_file_paths.head?
              = some pRem
          rw [saw_head st (Record.Set k0 v0) hsinv]
          exact hhead
        · show 2 ≤ (serialize_and_write st (Record.Set k0 v0)).2.log_file_paths.length
          exact Nat.le_trans hlen (saw_len st (Record.Set k0 v0))
        · show alookup (serialize_and_write st (Record.Set k0 v0)).2.files pRem
              = some content
          rw [saw_files_stable st (Record.Set k0 v0) pRem
              (fun e => hlocne e.symm)]
          exact hcont
        · intro q p o sz hq hp
          by_cases hqk : k0 = q
          · exfalso
            rw [← hqk] at hq
            have hq1 : alookup (ainsert
                (serialize_and_write st (Record.Set k0 v0)).2.log_index k0
                (serialize_and_write st (Record.Set k0 v0)).1) k0
                = some (p, o, sz) := hq
            have hself : alookup (ainsert
                (serialize_and_write st (Record.Set k0 v0)).2.log_index k0
                (serialize_and_write st (Record.Set k0 v0)).1) k0
                = some ((serialize_and_write st (Record.Set k0 v0)).1) :=
              alookup_ainsert_self _ _ _
            have hq2 := hself.symm.trans hq1
            have hp1 : (serialize_and_write st (Record.Set k0 v0)).1.1 = p := by
              have h4 := Option.some.inj hq2
              rw [h4]
            rw [hp] at hp1
            exact hlocne hp1
          · have hq2 : alookup st.log_index q = some (p, o, sz) := by
              rw [← saw_log_index st (Record.Set k0 v0),
                  ← alookup_ainsert_ne
                    (serialize_and_write st (Record.Set k0 v0)).2.log_index k0 q
                    (serialize_and_write st (Record.Set k0 v0)).1 hqk]
              exact hq
            obtain ⟨v, hv⟩ := hpend q p o sz hq2 hp
            rcases List.mem_cons.mp hv with hv | hv
            · exfalso
              simp only [Prod.mk.injEq, Record.Set.injEq] at hv
              exact hqk hv.2.1.symm
            · exact ⟨v, hv⟩
      · -- obsolete: only the meter changes
        have hstep : compactStep pRem st c (Record.Set k0 v0)
            = { st with bytes_for_compaction := st.bytes_for_compaction - sz1 } := by
          simp only [compactStep]
          rw [hl]
          simp only [if_neg hcnd]
        rw [hstep]
        refine ⟨sinv_bytes st _ hsinv, hrel, fun q => rfl, hhead, hlen, hcont, ?_⟩
        intro q p o sz hq hp
        obtain ⟨v, hv⟩ := hpend q p o sz hq hp
        rcases List.mem_cons.mp hv with hv | hv
        · exfalso
          simp only [Prod.mk.injEq, Record.Set.injEq] at hv
          obtain ⟨ho, hqk, hvv⟩ := hv
          rw [hqk] at hq
          rw [hq] at hl
          have := Option.some.inj hl
          simp only [Prod.mk.injEq] at this
          obtain ⟨hpp, hoo, _⟩ := this
          exact hcnd ⟨by rw [← hpp, ← hp], by rw [← hoo, ← ho]⟩
        · exact ⟨v, hv⟩

theorem compactScan_spec (pRem : Nat) (content : List Record) :
    ∀ (fs : List (Nat × Record)) (st : SharedKvStore),
    SInv st →
    (∀ q, alookup st.log_index q = updIdx none (keyRecsD (diskOf st) q)) →
    st.log_file_paths.head? = some pRem →
    2 ≤ st.log_file_paths.length →
    alookup st.files pRem = some content →
    (∀ fr, fr ∈ fs → fr ∈ frames content) →
    (∀ q p o sz, alookup st.log_index q = some (p, o, sz) → p = pRem →
        ∃ v, (o, Record.Set q v) ∈ fs) →
    SInv (compactScan pRem st fs)
    ∧ (∀ q, alookup (compactScan pRem st fs).log_index q
        = updIdx none (keyRecsD (diskOf (compactScan pRem st fs)) q))
    ∧ (∀ q, updVal none (keyRecsD (diskOf (compactScan pRem st fs)) q)
        = updVal none (keyRecsD (diskOf st) q))
    ∧ (compactScan pRem st fs).log_file_paths.head? = some pRem
    ∧ 2 ≤ (compactScan pRem st fs).log_file_paths.length
    ∧ alookup (compactScan pRem st fs).files pRem = some content
    ∧ (∀ q p o sz,
        alookup (compactScan pRem st fs).log_index q = some (p, o, sz) →
        p ≠ pRem) := by
  intro fs
  induction fs with
  | nil =>
    intro st hsinv hrel hhead hlen hcont hsub hpend
    refine ⟨hsinv, hrel, fun q => rfl, hhead, hlen, hcont, ?_⟩
    intro q p o sz hq hp
    obtain ⟨v, hv⟩ := hpend q p o sz hq hp
    cases hv
  | cons fr rest ih =>
    intro st hsinv hrel hhead hlen hcont hsub hpend
    obtain ⟨c, r⟩ := fr
    have hfr : (c, r) ∈ frames content := hsub _ (List.mem_cons_self _ _)
    obtain ⟨h1, h2, h3, h4, h5, h6, h7⟩ :=
      compactStep_spec pRem content st c r rest hsinv hrel hhead hlen hcont hfr hpend
    have hsub2 : ∀ fr2, fr2 ∈ rest → fr2 ∈ frames content :=
      fun fr2 hm => hsub _ (List.mem_cons_of_mem _ hm)
    obtain ⟨g1, g2, g3, g4, g5, g6, g7⟩ :=
      ih (compactStep pRem st c r) h1 h2 h4 h5 h6 hsub2 h7
    exact ⟨g1, g2, fun q => (g3 q).trans (h3 q), g4, g5, g6, g7⟩

theorem removeSegment_spec (st1 : SharedKvStore) (pRem : Nat)
    (content : List Record)
    (hsinv : SInv st1)
    (hrel : ∀ q, alookup st1.log_index q = updIdx none (keyRecsD (diskOf st1) q))
    (hhead : st1.log_file_paths.head? = some pRem)
    (hlen : 2 ≤ st1.log_file_paths.length)
    (hcont : alookup st1.files pRem = some content)
    (hnoidx : ∀ q p o sz, alookup st1.log_index q = some (p, o, sz) → p ≠ pRem) :
    SInv (removeSegment st1 pRem)
    ∧ (∀ q, alookup (removeSegment st1 pRem).log_index q
        = updIdx none (keyRecsD (diskOf (removeSegment st1 pRem)) q))
    ∧ (∀ q, updVal none (keyRecsD (diskOf (removeSegment st1 pRem)) q)
        = updVal none (keyRecsD (diskOf st1) q)) := by
  obtain ⟨rest1, hpaths⟩ := head?_eq_cons _ _ hhead
  have hnotin : pRem ∉ rest1 := by
    have hnd := hsinv.pathsNodup
    rw [hpaths] at hnd
    exact (List.nodup_cons.mp hnd).1
  have hrest_ne : rest1 ≠ [] := by
    intro h0
    rw [hpaths, h0] at hlen
    simp at hlen
  have hfilter : st1.log_file_paths.filter (fun q => q ≠ pRem) = rest1 := by
    rw [hpaths]
    rw [show (pRem :: rest1).filter (fun q => decide (q ≠ pRem))
          = rest1.filter (fun q => decide (q ≠ pRem)) by
        rw [List.filter_cons]
        simp]
    apply List.filter_eq_self.mpr
    intro a ha
    simp only [decide_eq_true_eq]
    intro e
    exact hnotin (e ▸ ha)
  have hdisk : diskOf (removeSegment st1 pRem)
      = rest1.map (fun p => (p, (alookup st1.files p).getD [])) := by
    show (st1.log_file_paths.filter (fun q => q ≠ pRem)).map
        (fun p => (p, (alookup (aerase st1.files pRem) p).getD [])) = _
    rw [hfilter]
    apply List.map_congr_left
    intro p hp
    have hne : pRem ≠ p := by
      intro e
      exact hnotin (e ▸ hp)
    rw [alookup_aerase_ne _ _ _ hne]
  have hdisk1 : diskOf st1
      = (pRem, content) :: rest1.map (fun p => (p, (alookup st1.files p).getD [])) := by
    show st1.log_file_paths.map (fun p => (p, (alookup st1.files p).getD [])) = _
    rw [hpaths, List.map_cons, hcont]
    rfl
  have hsplit : ∀ q, keyRecsD (diskOf st1) q
      = recsInF q pRem (frames content) ++ keyRecsD (diskOf (removeSegment st1 pRem)) q := by
    intro q
    rw [hdisk1, hdisk, keyRecsD_cons]
  refine ⟨?_, ?_, ?_⟩
  · constructor
    · show (st1.log_file_paths.filter (fun q => q ≠ pRem)).Nodup
      rw [hfilter]
      have hnd := hsinv.pathsNodup
      rw [hpaths] at hnd
      exact hnd.of_cons
    · show (st1.log_file_paths.filter (fun q => q ≠ pRem)).getLast?
          = some st1.active_path
      rw [hfilter, ← getLast?_cons_ne_nil pRem rest1 hrest_ne, ← hpaths]
      exact hsinv.activeLast
    · intro p hp
      have hp1 : p ∈ rest1 := by
        have : p ∈ st1.log_file_paths.filter (fun q => q ≠ pRem) := hp
        rw [hfilter] at this
        exact this
      have hne : pRem ≠ p := fun e => hnotin (e ▸ hp1)
      show (alookup (aerase st1.files pRem) p).isSome
      rw [alookup_aerase_ne _ _ _ hne]
      exact hsinv.pathsFiles p (by rw [hpaths]; exact List.mem_cons_of_mem _ hp1)
    · intro p hp
      have hp0 : (alookup (aerase st1.files pRem) p).isSome := hp
      by_cases hne : pRem = p
      · rw [← hne, alookup_aerase_self] at hp0
        cases hp0
      · rw [alookup_aerase_ne _ _ _ hne] at hp0
        have hmem := hsinv.filesPaths p hp0
        rw [hpaths] at hmem
        rcases List.mem_cons.mp hmem with hm | hm
        · exact absurd hm.symm hne
        · show p ∈ st1.log_file_paths.filter (fun q => q ≠ pRem)
          rw [hfilter]
          exact hm
    · intro p hp
      have hp1 : p ∈ rest1 := by
        have : p ∈ st1.log_file_paths.filter (fun q => q ≠ pRem) := hp
        rw [hfilter] at this
        exact this
      exact hsinv.counterBound p (by rw [hpaths]; exact List.mem_cons_of_mem _ hp1)
    · intro p hp
      have hp1 : p ∈ rest1 := by
        have : p ∈ st1.log_file_paths.filter (fun q => q ≠ pRem) := hp
        rw [hfilter] at this
        exact this
      have hne : p ≠ pRem := fun e => hnotin (e ▸ hp1)
      have hr := hsinv.readersPaths p (by rw [hpaths]; exact List.mem_cons_of_mem _ hp1)
      show p ∈ st1.log_file_readers.filter (fun q => q ≠ pRem)
      exact List.mem_filter.mpr ⟨hr, by simp [hne]⟩
  · intro q
    have hq := hrel q
    rw [hsplit q] at hq
    show alookup st1.log_index q
        = updIdx none (keyRecsD (diskOf (removeSegment st1 pRem)) q)
    cases hB : keyRecsD (diskOf (removeSegment st1 pRem)) q with
    | cons b0 B2 =>
      rw [hq, hB, updIdx_append, updIdx_cons_base_irrel]
    | nil =>
      rw [hB, List.append_nil] at hq
      cases hlq : alookup st1.log_index q with
      | none => rfl
      | some loc =>
        obtain ⟨p, o, sz⟩ := loc
        exfalso
        obtain ⟨l, v, hrec, _⟩ :=
          idx_entry_last (diskOf st1) st1.log_index q p o sz (hrel q) hlq
        have hmem : (p, o, Record.Set q v) ∈ recsInF q pRem (frames content) := by
          have h5 : recsInF q pRem (frames content) = l ++ [(p, o, Record.Set q v)] := by
            rw [← hrec, hsplit q, hB, List.append_nil]
          rw [h5]
          exact List.mem_append_right _ (List.mem_cons_self _ _)
        have := (mem_recsInF _ _ _ _ _ _ hmem).1
        exact hnoidx q p o sz hlq this
  · intro q
    rw [hsplit q]
    cases hB : keyRecsD (diskOf (removeSegment st1 pRem)) q with
    | cons b0 B2 =>
      rw [updVal_append, updVal_cons_base_irrel]
    | nil =>
      rw [List.append_nil]
      cases hlq : alookup st1.log_index q with
      | none =>
        have h6 := replay_none_of_idx_none (diskOf st1) st1.log_index q (hrel q) hlq
        rw [hsplit q, hB, List.append_nil] at h6
        rw [h6]
        rfl
      | some loc =>
        obtain ⟨p, o, sz⟩ := loc
        exfalso
        obtain ⟨l, v, hrec, _⟩ :=
          idx_entry_last (diskOf st1) st1.log_index q p o sz (hrel q) hlq
        have hmem : (p, o, Record.Set q v) ∈ recsInF q pRem (frames content) := by
          have h5 : recsInF q pRem (frames content) = l ++ [(p, o, Record.Set q v)] := by
            rw [← hrec, hsplit q, hB, List.append_nil]
          rw [h5]
          exact List.mem_append_right _ (List.mem_cons_self _ _)
        have := (mem_recsInF _ _ _ _ _ _ hmem).1
        exact hnoidx q p o sz hlq this

theorem compact_eq_of_run (st : SharedKvStore) (pRem : Nat)
    (h1 : ¬ st.bytes_for_compaction ≤ COMPACT_AFTER_BYTE_SIZE)
    (h2 : ¬ st.log_file_paths.length ≤ 1)
    (hh : st.log_file_paths.head? = some pRem) :
    compact st
      = removeSegment
          (compactScan pRem st (frames ((alookup st.files pRem).getD []))) pRem := by
  unfold compact
  rw [if_neg h1, if_neg h2, hh]

theorem compact_spec (st : SharedKvStore)
    (hsinv : SInv st)
    (hrel : ∀ q, alookup st.log_index q = updIdx none (keyRecsD (diskOf st) q)) :
    SInv (compact st)
    ∧ (∀ q, alookup (compact st).log_index q
        = updIdx none (keyRecsD (diskOf (compact st)) q))
    ∧ (∀ q, updVal none (keyRecsD (diskOf (compact st)) q)
        = updVal none (keyRecsD (diskOf st) q)) := by
  by_cases h1 : st.bytes_for_compaction ≤ COMPACT_AFTER_BYTE_SIZE
  · have he : compact st = st := by
      unfold compact
      rw [if_pos h1]
    rw [he]
    exact ⟨hsinv, hrel, fun q => rfl⟩
  · by_cases h2 : st.log_file_paths.length ≤ 1
    · have he : compact st = st := by
        unfold compact
        rw [if_neg h1, if_pos h2]
      rw [he]
      exact ⟨hsinv, hrel, fun q => rfl⟩
    · cases hh : st.log_file_paths.head? with
      | none =>
        exfalso
        cases hp : st.log_file_paths with
        | nil =>
          rw [hp] at h2
          simp at h2
        | cons a t =>
          rw [hp] at hh
          cases hh
      | some pRem =>
        have hlen : 2 ≤ st.log_file_paths.length := by omega
        have hpm : pRem ∈ st.log_file_paths := by
          obtain ⟨t, ht⟩ := head?_eq_cons _ _ hh
          rw [ht]
          exact List.mem_cons_self _ _
        have hcont : alookup st.files pRem
            = some ((alookup st.files pRem).getD []) := by
          obtain ⟨x, hx⟩ := Option.isSome_iff_exists.mp (hsinv.pathsFiles pRem hpm)
          rw [hx]
          rfl
        have hpend : ∀ q p o sz, alookup st.log_index q = some (p, o, sz) →
            p = pRem →
            ∃ v, (o, Record.Set q v) ∈ frames ((alookup st.files pRem).getD []) := by
          intro q p o sz hq hp
          obtain ⟨l, v, hrec, _⟩ :=
            idx_entry_last (diskOf st) st.log_index q p o sz (hrel q) hq
          have hmem : (p, o, Record.Set q v) ∈ keyRecsD (diskOf st) q := by
            rw [hrec]
            exact List.mem_append_right _ (List.mem_cons_self _ _)
          obtain ⟨_, hframe, _⟩ := keyRecs_mem_state st q p o _ hmem
          rw [hp] at hframe
          exact ⟨v, hframe⟩
        obtain ⟨g1, g2, g3, g4, g5, g6, g7⟩ :=
          compactScan_spec pRem ((alookup st.files pRem).getD [])
            (frames ((alookup st.files pRem).getD [])) st hsinv hrel hh hlen hcont
            (fun fr hm => hm) hpend
        obtain ⟨r1, r2, r3⟩ :=
          removeSegment_spec
            (compactScan pRem st (frames ((alookup st.files pRem).getD []))) pRem
            ((alookup st.files pRem).getD []) g1 g2 g4 g5 g6 g7
        rw [compact_eq_of_run st pRem h1 h2 hh]
        exact ⟨r1, r2, fun q => (r3 q).trans (g3 q)⟩

/-! Preservation of the invariant by set and remove. -/

theorem set_spec (st : SharedKvStore) (k v : String)
    (hsinv : SInv st)
    (hrel : ∀ q, alookup st.log_index q = updIdx none (keyRecsD (diskOf st) q)) :
    SInv (KvsModel.set st k v)
    ∧ (∀ q, alookup (KvsModel.set st k v).log_index q
        = updIdx none (keyRecsD (diskOf (KvsModel.set st k v)) q))
    ∧ (∀ q, updVal none (keyRecsD (diskOf (KvsModel.set st k v)) q)
        = if q = k then some v else updVal none (keyRecsD (diskOf st) q)) := by
  have hsinv2 := saw_sinv st (Record.Set k v) hsinv
  have hmidsinv : SInv { (serialize_and_write st (Record.Set k v)).2 with
      log_index := ainsert (serialize_and_write st (Record.Set k v)).2.log_index
        k (serialize_and_write st (Record.Set k v)).1
      bytes_for_compaction :=
        (serialize_and_write st (Record.Set k v)).2.bytes_for_compaction +
          (match alookup (serialize_and_write st (Record.Set k v)).2.log_index k with
           | some (_, _, sz) => sz
           | none => 0) } :=
    ⟨hsinv2.pathsNodup, hsinv2.activeLast, hsinv2.pathsFiles,
     hsinv2.filesPaths, hsinv2.counterBound, hsinv2.readersPaths⟩
  have hmidrel : ∀ q,
      alookup (ainsert (serialize_and_write st (Record.Set k v)).2.log_index
        k (serialize_and_write st (Record.Set k v)).1) q
      = updIdx none (keyRecsD (diskOf (serialize_and_write st (Record.Set k v)).2) q) := by
    intro q
    rw [saw_keyRecs st (Record.Set k v) hsinv q]
    by_cases hq : k = q
    · rw [← hq, alookup_ainsert_self,
          if_pos (show Record.key (Record.Set k v) = k from rfl), updIdx_concat]
      rw [saw_loc_eta st (Record.Set k v)]
    · rw [alookup_ainsert_ne _ _ _ _ hq,
          if_neg (show ¬ Record.key (Record.Set k v) = q from hq),
          List.append_nil, saw_log_index]
      exact hrel q
  have hmidrep : ∀ q,
      updVal none (keyRecsD (diskOf (serialize_and_write st (Record.Set k v)).2) q)
      = if q = k then some v else updVal none (keyRecsD (diskOf st) q) := by
    intro q
    rw [saw_keyRecs st (Record.Set k v) hsinv q]
    by_cases hq : q = k
    · rw [if_pos hq,
          if_pos (show Record.key (Record.Set k v) = q from hq.symm), updVal_concat]
    · rw [if_neg hq,
          if_neg (show ¬ Record.key (Record.Set k v) = q from fun e => hq e.symm),
          List.append_nil]
  obtain ⟨c1, c2, c3⟩ := compact_spec _ hmidsinv hmidrel
  exact ⟨c1, c2, fun q => (c3 q).trans (hmidrep q)⟩

theorem remove_spec (st : SharedKvStore) (k : String)
    (hsinv : SInv st)
    (hrel : ∀ q, alookup st.log_index q = updIdx none (keyRecsD (diskOf st) q)) :
    SInv (KvsModel.remove st k).2
    ∧ (∀ q, alookup (KvsModel.remove st k).2.log_index q
        = updIdx none (keyRecsD (diskOf (KvsModel.remove st k).2) q))
    ∧ (∀ q, updVal none (keyRecsD (diskOf (KvsModel.remove st k).2) q)
        = if q = k then none else updVal none (keyRecsD (diskOf st) q)) := by
  cases hl : alookup st.log_index k with
  | none =>
    have hstate : (KvsModel.remove st k).2 = st := by
      unfold remove
      rw [hl]
    rw [hstate]
    refine ⟨hsinv, hrel, fun q => ?_⟩
    by_cases hq : q = k
    · rw [if_pos hq, hq]
      exact replay_none_of_idx_none _ _ _ (hrel k) hl
    · rw [if_neg hq]
  | some loc =>
    obtain ⟨p0, o0, s0⟩ := loc
    have hs1 : SInv { st with log_index := aerase st.log_index k } :=
      sinv_idx st _ hsinv
    have hsinv2 := saw_sinv { st with log_index := aerase st.log_index k }
      (Record.Delete k) hs1
    have hstate : (KvsModel.remove st k).2
        = compact { (serialize_and_write
              { st with log_index := aerase st.log_index k }
              (Record.Delete k)).2 with
            bytes_for_compaction :=
              (serialize_and_write { st with log_index := aerase st.log_index k }
                (Record.Delete k)).2.bytes_for_compaction + s0 } := by
      unfold remove
      rw [hl]
    rw [hstate]
    have hmidsinv : SInv { (serialize_and_write
        { st with log_index := aerase st.log_index k } (Record.Delete k)).2 with
        bytes_for_compaction :=
          (serialize_and_write { st with log_index := aerase st.log_index k }
            (Record.Delete k)).2.bytes_for_compaction + s0 } :=
      ⟨hsinv2.pathsNodup, hsinv2.activeLast, hsinv2.pathsFiles,
       hsinv2.filesPaths, hsinv2.counterBound, hsinv2.readersPaths⟩
    have hmidrel : ∀ q,
        alookup (serialize_and_write { st with log_index := aerase st.log_index k }
          (Record.Delete k)).2.log_index q
        = updIdx none (keyRecsD (diskOf (serialize_and_write
            { st with log_index := aerase st.log_index k }
            (Record.Delete k)).2) q) := by
      intro q
      rw [saw_keyRecs { st with log_index := aerase st.log_index k }
        (Record.Delete k) hs1 q, saw_log_index]
      by_cases hq : q = k
      · show alookup (aerase st.log_index k) q = _
        rw [hq, alookup_aerase_self,
            if_pos (show Record.key (Record.Delete k) = k from rfl),
            updIdx_concat]
      · show alookup (aerase st.log_index k) q = _
        rw [alookup_aerase_ne _ _ _ (fun e => hq e.symm),
            if_neg (show ¬ Record.key (Record.Delete k) = q from fun e => hq e.symm),
            List.append_nil]
        exact hrel q
    have hmidrep : ∀ q,
        updVal none (keyRecsD (diskOf (serialize_and_write
            { st with log_index := aerase st.log_index k }
            (Record.Delete k)).2) q)
        = if q = k then none else updVal none (keyRecsD (diskOf st) q) := by
      intro q
      rw [saw_keyRecs { st with log_index := aerase st.log_index k }
        (Record.Delete k) hs1 q]
      by_cases hq : q = k
      · rw [if_pos hq,
            if_pos (show Record.key (Record.Delete k) = q from hq.symm),
            updVal_concat]
      · rw [if_neg hq,
            if_neg (show ¬ Record.key (Record.Delete k) = q from fun e => hq e.symm),
            List.append_nil]
        rfl
    obtain ⟨c1, c2, c3⟩ := compact_spec _ hmidsinv hmidrel
    exact ⟨c1, c2, fun q => (c3 q).trans (hmidrep q)⟩

/-! The invariant holds in every state reached from an engine opened over
an empty directory, and the disk replays to exactly the specification
map. -/

theorem inv_openEmpty_sinv : SInv openEmpty := by
  constructor
  · show ([0] : List Nat).Nodup
    simp
  · rfl
  · intro p hp
    have hp1 : p ∈ [(0 : Nat)] := hp
    have hp0 : p = 0 := by simpa using hp1
    rw [hp0]
    rfl
  · intro p hp
    by_cases h0 : (0 : Nat) = p
    · rw [← h0]
      show (0 : Nat) ∈ [0]
      exact List.mem_cons_self _ _
    · exfalso
      have : alookup ([((0 : Nat), ([] : List Record))]) p = none := by
        simp [alookup, h0]
      have hp2 : (alookup ([((0 : Nat), ([] : List Record))]) p).isSome := hp
      rw [this] at hp2
      cases hp2
  · intro p hp
    have hp1 : p ∈ [(0 : Nat)] := hp
    have hp0 : p = 0 := by simpa using hp1
    rw [hp0]
    exact Nat.le_refl 0
  · intro p hp
    have hp1 : p ∈ [(0 : Nat)] := hp
    have hp0 : p = 0 := by simpa using hp1
    rw [hp0]
    show (0 : Nat) ∈ [0]
    exact List.mem_cons_self _ _

theorem inv_openEmpty_rel (q : String) :
    alookup openEmpty.log_index q
      = updIdx none (keyRecsD (diskOf openEmpty) q) := rfl

theorem applyList_inv (ops : List Op) :
    ∀ (st : SharedKvStore) (σ : String → Option String),
    SInv st →
    (∀ q, alookup st.log_index q = updIdx none (keyRecsD (diskOf st) q)) →
    (∀ q, updVal none (keyRecsD (diskOf st) q) = σ q) →
    SInv (ops.foldl applyOp st)
    ∧ (∀ q, alookup (ops.foldl applyOp st).log_index q
        = updIdx none (keyRecsD (diskOf (ops.foldl applyOp st)) q))
    ∧ (∀ q, updVal none (keyRecsD (diskOf (ops.foldl applyOp st)) q)
        = (ops.foldl specStep σ) q) := by
  induction ops with
  | nil =>
    intro st σ h1 h2 h3
    exact ⟨h1, h2, h3⟩
  | cons op rest ih =>
    intro st σ h1 h2 h3
    cases op with
    | set k v =>
      obtain ⟨s1, s2, s3⟩ := set_spec st k v h1 h2
      refine ih (KvsModel.set st k v) (specStep σ (Op.set k v)) s1 s2 ?_
      intro q
      rw [s3 q]
      by_cases hq : q = k
      · show (if q = k then some v else _) = if q = k then some v else σ q
        rw [if_pos hq, if_pos hq]
      · show (if q = k then some v else _) = if q = k then some v else σ q
        rw [if_neg hq, if_neg hq, h3 q]
    | remove k =>
      obtain ⟨s1, s2, s3⟩ := remove_spec st k h1 h2
      refine ih (KvsModel.remove st k).2 (specStep σ (Op.remove k)) s1 s2 ?_
      intro q
      rw [s3 q]
      by_cases hq : q = k
      · show (if q = k then none else _) = if q = k then none else σ q
        rw [if_pos hq, if_pos hq]
      · show (if q = k then none else _) = if q = k then none else σ q
        rw [if_neg hq, if_neg hq, h3 q]

theorem reach_inv (ops : List Op) :
    SInv (applySeq ops)
    ∧ (∀ q, alookup (applySeq ops).log_index q
        = updIdx none (keyRecsD (diskOf (applySeq ops)) q))
    ∧ (∀ q, updVal none (keyRecsD (diskOf (applySeq ops)) q) = specOf ops q) :=
  applyList_inv ops openEmpty (fun _ => none) inv_openEmpty_sinv
    inv_openEmpty_rel (fun _ => rfl)

/-- C1: for every finite sequence of set/remove operations run on an
engine opened over an empty directory (get operations do not change the
observable state, and a failed remove leaves the state unchanged), get
returns exactly the value of the most recent set not superseded by a
remove, and None when the key was never set or its latest set was followed
by a remove. -/
theorem C1_get_follows_ops (ops : List Op) (k : String) :
    get (applySeq ops) k = some (Except.ok (specOf ops k)) := by
  obtain ⟨h1, h2, h3⟩ := reach_inv ops
  rw [get_spec (applySeq ops) h2 h1.readersPaths k]
  rw [show replayD (diskOf (applySeq ops)) k
        = updVal none (keyRecsD (diskOf (applySeq ops)) k) from rfl, h3 k]

/-! The scan of KvStore::open rebuilds exactly the index the log
prescribes. -/

theorem scanFrames_idx (p : Nat) (fs : List (Nat × Record)) :
    ∀ (acc : List (String × Loc) × Nat) (k : String),
    alookup (scanFrames p acc fs).1 k
      = updIdx (alookup acc.1 k) (recsInF k p fs) := by
  induction fs with
  | nil =>
    intro acc k
    rfl
  | cons fr rest ih =>
    intro acc k
    obtain ⟨off, r⟩ := fr
    obtain ⟨idx, bytes⟩ := acc
    cases r with
    | Set k0 v0 =>
      simp only [scanFrames]
      rw [ih]
      by_cases hk : k0 = k
      · rw [show recsInF k p ((off, Record.Set k0 v0) :: rest)
              = (p, off, Record.Set k0 v0) :: recsInF k p rest from by
            simp [recsInF, List.filterMap_cons, Record.key, hk]]
        rw [← hk, alookup_ainsert_self]
        rfl
      · rw [show recsInF k p ((off, Record.Set k0 v0) :: rest)
              = recsInF k p rest from by
            simp [recsInF, List.filterMap_cons, Record.key, hk]]
        rw [alookup_ainsert_ne _ _ _ _ hk]
    | Delete k0 =>
      simp only [scanFrames]
      rw [ih]
      by_cases hk : k0 = k
      · rw [show recsInF k p ((off, Record.Delete k0) :: rest)
              = (p, off, Record.Delete k0) :: recsInF k p rest from by
            simp [recsInF, List.filterMap_cons, Record.key, hk]]
        rw [← hk, alookup_aerase_self]
        rfl
      · rw [show recsInF k p ((off, Record.Delete k0) :: rest)
              = recsInF k p rest from by
            simp [recsInF, List.filterMap_cons, Record.key, hk]]
        rw [alookup_aerase_ne _ _ _ hk]

theorem scanDisk_idx (d : List (Nat × List Record)) :
    ∀ (acc : List (String × Loc) × Nat) (k : String),
    alookup (scanDisk acc d).1 k = updIdx (alookup acc.1 k) (keyRecsD d k) := by
  induction d with
  | nil =>
    intro acc k
    rfl
  | cons pf rest ih =>
    intro acc k
    obtain ⟨p, rs⟩ := pf
    simp only [scanDisk]
    rw [ih, scanFrames_idx, keyRecsD_cons, updIdx_append]

theorem openKv_eq_scan (d : List (Nat × List Record)) (lastName : Nat)
    (h : (d.map Prod.fst).getLast? = some lastName) :
    openKv d = { log_index := (scanDisk ([], 0) d).1,
                 log_file_readers := d.map Prod.fst,
                 active_path := lastName,
                 files := d,
                 log_file_paths := d.map Prod.fst,
                 log_file_counter := d.length,
                 bytes_for_compaction := (scanDisk ([], 0) d).2 } := by
  unfold openKv
  simp only [h]

theorem map_getLast?_none (d : List (Nat × List Record))
    (h : (d.map Prod.fst).getLast? = none) : d = [] := by
  cases d with
  | nil => rfl
  | cons pf rest =>
    exfalso
    rcases concat_cases ((pf :: rest).map Prod.fst) with h0 | ⟨L, b, hL⟩
    · simp at h0
    · rw [hL, List.getLast?_concat] at h
      cases h

theorem map_fst_pair (f : Nat → List Record) (l : List Nat) :
    (l.map fun p => (p, f p)).map Prod.fst = l := by
  induction l with
  | nil => rfl
  | cons a t ih =>
    simp only [List.map_cons, ih]

theorem openKv_idx (d : List (Nat × List Record)) (k : String) :
    alookup (openKv d).log_index k = updIdx none (keyRecsD d k) := by
  cases hl : (d.map Prod.fst).getLast? with
  | some lastName =>
    rw [openKv_eq_scan d lastName hl]
    show alookup (scanDisk ([], 0) d).1 k = _
    rw [scanDisk_idx d ([], 0) k]
    rfl
  | none =>
    have hd : d = [] := map_getLast?_none d hl
    subst hd
    rfl

theorem map_names_lookup (d : List (Nat × List Record))
    (h : (d.map Prod.fst).Nodup) :
    (d.map Prod.fst).map (fun p => (p, (alookup d p).getD [])) = d := by
  induction d with
  | nil => rfl
  | cons pf rest ih =>
    obtain ⟨p, rs⟩ := pf
    have hnotin : p ∉ rest.map Prod.fst := by
      rw [List.map_cons] at h
      exact (List.nodup_cons.mp h).1
    have hrest : (rest.map Prod.fst).Nodup := by
      rw [List.map_cons] at h
      exact (List.nodup_cons.mp h).2
    rw [List.map_cons, List.map_cons]
    have hcong : List.map (fun q => (q, (alookup ((p, rs) :: rest) q).getD []))
        (rest.map Prod.fst)
        = List.map (fun q => (q, (alookup rest q).getD [])) (rest.map Prod.fst) := by
      apply List.map_congr_left
      intro q hq
      have hne : p ≠ q := fun e => hnotin (e ▸ hq)
      show (q, (alookup ((p, rs) :: rest) q).getD []) = (q, (alookup rest q).getD [])
      rw [show alookup ((p, rs) :: rest) q = alookup rest q from by
          simp [alookup, hne]]
    congr 1
    · show (p, (if p = p then some rs else alookup rest p).getD []) = ((p, rs) : Nat × List Record)
      rw [if_pos rfl]
      rfl
    · rw [hcong]
      exact ih hrest

theorem diskOf_openKv (d : List (Nat × List Record))
    (hnodup : (d.map Prod.fst).Nodup) (hne : d ≠ []) :
    diskOf (openKv d) = d := by
  cases hl : (d.map Prod.fst).getLast? with
  | none =>
    exact absurd (map_getLast?_none d hl) hne
  | some lastName =>
    rw [openKv_eq_scan d lastName hl]
    show (d.map Prod.fst).map (fun p => (p, (alookup d p).getD [])) = d
    exact map_names_lookup d hnodup

theorem openKv_readers (d : List (Nat × List Record)) :
    ∀ p, p ∈ (openKv d).log_file_paths → p ∈ (openKv d).log_file_readers := by
  cases hl : (d.map Prod.fst).getLast? with
  | some lastName =>
    rw [openKv_eq_scan d lastName hl]
    intro p hp
    exact hp
  | none =>
    have hd : d = [] := map_getLast?_none d hl
    subst hd
    intro p hp
    exact hp

/-- C2: after any sequence of operations on an engine opened over an
empty directory, dropping the engine and reopening the same directory
yields an engine whose get returns the same result for every key; the
directory is scanned in modification-time order, which for this engine is
the creation order of its segments. -/
theorem C2_reopen_preserves_get (ops : List Op) (k : String) :
    get (openKv (diskOf (applySeq ops))) k = get (applySeq ops) k := by
  obtain ⟨h1, h2, h3⟩ := reach_inv ops
  have hnames : (diskOf (applySeq ops)).map Prod.fst
      = (applySeq ops).log_file_paths :=
    map_fst_pair _ _
  have hnodup : ((diskOf (applySeq ops)).map Prod.fst).Nodup := by
    rw [hnames]
    exact h1.pathsNodup
  have hdne : diskOf (applySeq ops) ≠ [] := by
    intro h0
    have h4 : (applySeq ops).log_file_paths = [] := by
      have h5 := congrArg (List.map Prod.fst) h0
      rw [hnames] at h5
      simpa using h5
    exact sinv_paths_ne_nil _ h1 h4
  have hdisk := diskOf_openKv (diskOf (applySeq ops)) hnodup hdne
  have hidx : ∀ q, alookup (openKv (diskOf (applySeq ops))).log_index q
      = updIdx none (keyRecsD (diskOf (openKv (diskOf (applySeq ops)))) q) := by
    intro q
    rw [hdisk]
    exact openKv_idx _ q
  rw [get_spec (openKv (diskOf (applySeq ops))) hidx (openKv_readers _) k,
      get_spec (applySeq ops) h2 h1.readersPaths k,
      show replayD (diskOf (openKv (diskOf (applySeq ops)))) k
        = updVal none (keyRecsD (diskOf (openKv (diskOf (applySeq ops)))) k)
        from rfl,
      hdisk]
  rfl

/-- C5 amended: in every state reachable by operations from an engine
opened over an empty directory (no reopening), log_file_counter is greater
than or equal to the numeric prefix of every existing segment file. -/
theorem C5_counter_bound (ops : List Op) (p : Nat)
    (hp : p ∈ (applySeq ops).files.map Prod.fst) :
    p ≤ (applySeq ops).log_file_counter := by
  obtain ⟨h1, _, _⟩ := reach_inv ops
  have hsome := alookup_isSome_of_mem_names _ _ hp
  exact h1.counterBound p (h1.filesPaths p hsome)

/-- C5 witness at the freshly opened engine and its only segment 0.log. -/
theorem C5_witness :
    0 ∈ (applySeq []).files.map Prod.fst
    ∧ 0 ≤ (applySeq []).log_file_counter :=
  ⟨by decide, C5_counter_bound [] 0 (by decide)⟩

end KvsModel
